import Mathlib

set_option maxRecDepth 16000

/-!
Verification development for the parallel-primitives core of
`src/core/common/ligraUtils.h` (reduce, scan, pack, sumFlagsSerial,
writeMin, remDuplicates).

Modelling conventions (shallow embedding):
* C buffers become total functions `Nat → α`; a store `Out[i] = v` becomes
  `Function.update Out i v`.  Machine indices (`intT`, `long`) become `Nat`.
* A `parallel_for` whose iterations write statically disjoint locations is
  serialised left-to-right (any serialisation yields the same state).
* The blocked recursion of `reduce`/`scan` is expressed with an explicit
  fuel argument recursing structurally; the public entry points instantiate
  the fuel with the range length, which dominates the recursion depth
  (`nblocks` is strictly below the range length once a real block split
  happens, see `nblocks_lt_of_two_le`).  Fuel-irrelevance is proved, so the
  fuel is semantically invisible.
* `scan` in the source is called both with `Out` disjoint from the getter's
  buffer and with `Out` aliasing it (`scan(Sums, 0, l, f, getA(Sums), ...)`,
  `plusScan(Sums, Sums, l)`).  The aliased calls are embedded as `scanIP`,
  which reads the very array it writes; the alias-free calls as `scan`,
  whose getter is a pure function.
-/

/-! ### Specification-side folds (from the spec's words, for refinement) -/

/-- Left-to-right fold of `z` with `g i, g (i+1), ..., g (i+k-1)`. -/
def foldGo {α : Type} (f : α → α → α) (g : Nat → α) : α → Nat → Nat → α
  | z, _, 0 => z
  | z, i, k+1 => foldGo f g (f z (g i)) (i+1) k

/-- Modelled from the spec: `fold(f, z, A[s..e))`, the left-to-right fold of
the zero with the elements of the index range `[s, e)`. -/
def foldRange {α : Type} (f : α → α → α) (z : α) (g : Nat → α) (s e : Nat) : α :=
  foldGo f g z s (e - s)

/-- Left-to-right fold of `z` with `g (i-1), g (i-2), ..., g (i-k)`. -/
def foldGoRev {α : Type} (f : α → α → α) (g : Nat → α) : α → Nat → Nat → α
  | z, _, 0 => z
  | z, i, k+1 => foldGoRev f g (f z (g (i-1))) (i-1) k

/-- Fold of `z` with the elements of `[s, e)` taken in decreasing index
order (the order the reversed serial scan consumes them). -/
def foldRangeRev {α : Type} (f : α → α → α) (z : α) (g : Nat → α) (s e : Nat) : α :=
  foldGoRev f g z e (e - s)

/-- Indices in `[i, i+k)` whose flag is set, in increasing order. -/
def flaggedGo (Fl : Nat → Bool) : Nat → Nat → List Nat
  | _, 0 => []
  | i, k+1 => if Fl i then i :: flaggedGo Fl (i+1) k else flaggedGo Fl (i+1) k

/-- Modelled from the spec: the subsequence of true-flagged indices of
`[s, e)`, in original order. -/
def flagged (Fl : Nat → Bool) (s e : Nat) : List Nat := flaggedGo Fl s (e - s)

/-! ### Embedding of the source -/

/-- `#define nblocks(_n, _bsize) (1 + ((_n)-1) / (_bsize))` (line 127).
For `_n = 0` the C expression is `1 + (-1)/bsize = 1 + 0 = 1` (signed
division truncates toward zero), which `Nat` subtraction reproduces. -/
def nblocks (n bsize : Nat) : Nat := 1 + (n - 1) / bsize

/-- Branch condition of `sequence::reduce` (line 166): serial iff `l <= 1`. -/
def reduceGoesSerial (bsize n : Nat) : Bool := decide (nblocks n bsize ≤ 1)

/-- Branch condition of `sequence::scan` (line 307): serial iff `l <= 2`. -/
def scanGoesSerial (bsize n : Nat) : Bool := decide (nblocks n bsize ≤ 2)

/-- Branch condition of `sequence::pack` (line 389): serial iff `l <= 1`,
where the block size is `_F_BSIZE = 2 * _SCAN_BSIZE`. -/
def packGoesSerial (bsize n : Nat) : Bool := decide (nblocks n (2 * bsize) ≤ 1)

/-- Loop of `sequence::reduceSerial` (lines 155-161): `r` accumulated over
`g j` for `j` in `[i, i+k)`. -/
def reduceGo {α : Type} (f : α → α → α) (g : Nat → α) : Nat → Nat → α → α
  | _, 0, r => r
  | j, k+1, r => reduceGo f g (j+1) k (f r (g j))

/-- `sequence::reduceSerial(s, e, f, g)`: `r = g(s); for (j = s+1; j < e; j++)
r = f(r, g(j))`. -/
def reduceSerial {α : Type} (s e : Nat) (f : α → α → α) (g : Nat → α) : α :=
  reduceGo f g (s+1) (e - (s+1)) (g s)

/-- `sequence::reduce(s, e, f, g)` (lines 163-173), recursion depth bounded
by the explicit fuel (see the file header).  The parallel block loop
`blocked_for(i, s, e, _SCAN_BSIZE, Sums[i] = reduceSerial(s, e, f, g))`
materialises the per-block partial folds; the recursive call reduces them. -/
def reduceFuel {α : Type} (bsize : Nat) (f : α → α → α) : Nat → Nat → Nat → (Nat → α) → α
  | 0, s, e, g => reduceSerial s e f g
  | fuel+1, s, e, g =>
      if reduceGoesSerial bsize (e - s) then reduceSerial s e f g
      else
        reduceFuel bsize f fuel 0 (nblocks (e - s) bsize)
          (fun i => reduceSerial (s + i * bsize) (min (s + i * bsize + bsize) e) f g)

/-- `sequence::reduce(s, e, f, g)` with `bsize = _SCAN_BSIZE` in the source. -/
def reduce {α : Type} (bsize : Nat) (s e : Nat) (f : α → α → α) (g : Nat → α) : α :=
  reduceFuel bsize f (e - s) s e g

/-- `sequence::reduce(A, n, f)` (line 175): `reduce(0, n, f, getA(A))`. -/
def reduceArr {α : Type} (bsize : Nat) (A : Nat → α) (n : Nat) (f : α → α → α) : α :=
  reduce bsize 0 n f A

/-- Forward loop of `sequence::scanSerial` (lines 268-292): starting at index
`i` with `k` iterations left and accumulator `r`, write
`Out[i] = (inclusive ? f(r, g(i)) : r)` and continue with `r := f(r, g(i))`. -/
def scanGoF {α : Type} (f : α → α → α) (g : Nat → α) (incl : Bool) :
    Nat → Nat → α → (Nat → α) → (Nat → α) × α
  | _, 0, r, Out => (Out, r)
  | i, k+1, r, Out =>
      scanGoF f g incl (i+1) k (f r (g i))
        (Function.update Out i (if incl then f r (g i) else r))

/-- Backward loop of `sequence::scanSerial` (`back = true`): `i = e; while
(i > s) { i--; ... }`; the counter `i` here is the C loop's `i` before the
decrement, so index `i-1` is processed. -/
def scanGoB {α : Type} (f : α → α → α) (g : Nat → α) (incl : Bool) :
    Nat → Nat → α → (Nat → α) → (Nat → α) × α
  | _, 0, r, Out => (Out, r)
  | i, k+1, r, Out =>
      scanGoB f g incl (i-1) k (f r (g (i-1)))
        (Function.update Out (i-1) (if incl then f r (g (i-1)) else r))

/-- `sequence::scanSerial(Out, s, e, f, g, zero, inclusive, back)`
(lines 264-295), with `Out` disjoint from the buffer `g` reads. -/
def scanSerial {α : Type} (Out : Nat → α) (s e : Nat) (f : α → α → α) (g : Nat → α)
    (zero : α) (incl back : Bool) : (Nat → α) × α :=
  if back then scanGoB f g incl e (e - s) zero Out
  else scanGoF f g incl s (e - s) zero Out

/-- Forward serial scan loop when `Out` aliases the getter's buffer: the
element is read from the current array before its slot is overwritten
(`ET t = g(i); Out[i] = r; r = f(r, t)` and `Out[i] = r = f(r, g(i))`). -/
def scanIPGoF {α : Type} (f : α → α → α) (incl : Bool) :
    Nat → Nat → α → (Nat → α) → (Nat → α) × α
  | _, 0, r, A => (A, r)
  | i, k+1, r, A =>
      scanIPGoF f incl (i+1) k (f r (A i))
        (Function.update A i (if incl then f r (A i) else r))

/-- Backward serial scan loop when `Out` aliases the getter's buffer. -/
def scanIPGoB {α : Type} (f : α → α → α) (incl : Bool) :
    Nat → Nat → α → (Nat → α) → (Nat → α) × α
  | _, 0, r, A => (A, r)
  | i, k+1, r, A =>
      scanIPGoB f incl (i-1) k (f r (A (i-1)))
        (Function.update A (i-1) (if incl then f r (A (i-1)) else r))

/-- `sequence::scanSerial` applied in place (`Out` aliases the source). -/
def scanSerialIP {α : Type} (A : Nat → α) (s e : Nat) (f : α → α → α)
    (zero : α) (incl back : Bool) : (Nat → α) × α :=
  if back then scanIPGoB f incl e (e - s) zero A
  else scanIPGoF f incl s (e - s) zero A

/-- Serialisation of `blocked_for`: apply `step i` for `i` in `[i0, i0+c)`;
every use has `step i` writing a sub-range disjoint from all others. -/
def blockedFor {α : Type} (step : Nat → (Nat → α) → (Nat → α)) :
    Nat → Nat → (Nat → α) → (Nat → α)
  | _, 0, A => A
  | i, c+1, A => blockedFor step (i+1) c (step i A)

/-- `sequence::scan(Out, s, e, f, g, zero, inclusive, back)` (lines 303-316)
in the aliased form the source actually recurses with: the getter reads the
array being written (`scan(Sums, 0, l, f, getA(Sums), zero, false, back)`).
Phase 1 folds each block of the current array into a fresh `Sums` buffer;
phase 2 scans `Sums` in place (the recursive aliased call); phase 3 rescans
each block in place seeded by its prefix.  Fuel bounds the recursion. -/
def scanIPFuel {α : Type} (bsize : Nat) (f : α → α → α) :
    Nat → (Nat → α) → Nat → Nat → α → Bool → Bool → (Nat → α) × α
  | 0, A, s, e, zero, incl, back => scanSerialIP A s e f zero incl back
  | fuel+1, A, s, e, zero, incl, back =>
      if scanGoesSerial bsize (e - s) then scanSerialIP A s e f zero incl back
      else
        let l := nblocks (e - s) bsize
        let Sums := fun i => reduceSerial (s + i * bsize) (min (s + i * bsize + bsize) e) f A
        let P := scanIPFuel bsize f fuel Sums 0 l zero false back
        (blockedFor
          (fun i B => (scanSerialIP B (s + i * bsize) (min (s + i * bsize + bsize) e) f
            (P.1 i) incl back).1) 0 l A, P.2)

/-- The aliased (`Out == In`) form of `sequence::scan`. -/
def scanIP {α : Type} (bsize : Nat) (A : Nat → α) (s e : Nat) (f : α → α → α)
    (zero : α) (incl back : Bool) : (Nat → α) × α :=
  scanIPFuel bsize f (e - s) A s e zero incl back

/-- `sequence::scan(Out, s, e, f, g, zero, inclusive, back)` (lines 303-316)
with `Out` disjoint from the buffer `g` reads.  Its recursive call is the
aliased `scanIP` exactly as in the source. -/
def scan {α : Type} (bsize : Nat) (Out : Nat → α) (s e : Nat) (f : α → α → α)
    (g : Nat → α) (zero : α) (incl back : Bool) : (Nat → α) × α :=
  if scanGoesSerial bsize (e - s) then scanSerial Out s e f g zero incl back
  else
    let l := nblocks (e - s) bsize
    let Sums := fun i => reduceSerial (s + i * bsize) (min (s + i * bsize + bsize) e) f g
    let P := scanIP bsize Sums 0 l f zero false back
    (blockedFor
      (fun i B => (scanSerial B (s + i * bsize) (min (s + i * bsize + bsize) e) f g
        (P.1 i) incl back).1) 0 l Out, P.2)

/-- `sequence::scan(In, Out, n, f, zero)` (line 318): forward exclusive. -/
def scanArr {α : Type} (bsize : Nat) (In Out : Nat → α) (n : Nat)
    (f : α → α → α) (zero : α) : (Nat → α) × α :=
  scan bsize Out 0 n f In zero false false

/-- `sequence::scanI(In, Out, n, f, zero)` (line 323): forward inclusive. -/
def scanI {α : Type} (bsize : Nat) (In Out : Nat → α) (n : Nat)
    (f : α → α → α) (zero : α) : (Nat → α) × α :=
  scan bsize Out 0 n f In zero true false

/-- `sequence::scanBack(In, Out, n, f, zero)` (line 328): reversed exclusive. -/
def scanBack {α : Type} (bsize : Nat) (In Out : Nat → α) (n : Nat)
    (f : α → α → α) (zero : α) : (Nat → α) × α :=
  scan bsize Out 0 n f In zero false true

/-- `sequence::scanIBack(In, Out, n, f, zero)` (line 333): reversed inclusive. -/
def scanIBack {α : Type} (bsize : Nat) (In Out : Nat → α) (n : Nat)
    (f : α → α → α) (zero : α) : (Nat → α) × α :=
  scan bsize Out 0 n f In zero true true

/-! #### sumFlagsSerial (lines 354-371) -/

/-- The word read by `IFl[q]` after `int *IFl = (int *)Fl`: four adjacent
one-byte booleans reinterpreted as one little-endian 32-bit word.  All
values handled stay below `2^32`, and the masked byte-lane extractions below
coincide with the machine's arithmetic-shift-then-mask, so plain `Nat`
arithmetic models the `int` computation faithfully. -/
def packedFlags (Fl : Nat → Bool) (q : Nat) : Nat :=
  (Fl (4*q)).toNat + 2^8 * (Fl (4*q+1)).toNat + 2^16 * (Fl (4*q+2)).toNat
    + 2^24 * (Fl (4*q+3)).toNat

/-- Inner loop `for (j = 0; j < 128; j++) rr += IFl[j]` generalised: add `j`
words starting at word index `q`. -/
def rrGo (Fl : Nat → Bool) : Nat → Nat → Nat → Nat
  | _, 0, rr => rr
  | q, j+1, rr => rrGo Fl (q+1) j (rr + packedFlags Fl q)

/-- Outer loop of the fast path: `k` batches of 128 words (512 flags),
extracting the four byte lanes of each batch sum. -/
def sumFlagsFastGo (Fl : Nat → Bool) : Nat → Nat → Nat → Nat
  | _, 0, r => r
  | q, k+1, r =>
      let rr := rrGo Fl q 128 0
      sumFlagsFastGo Fl (q + 128) k
        (r + ((rr &&& 255) + ((rr >>> 8) &&& 255) + ((rr >>> 16) &&& 255)
          + ((rr >>> 24) &&& 255)))

/-- Plain path: `for (j = 0; j < n; j++) r += Fl[j]`. -/
def sumFlagsPlainGo (Fl : Nat → Bool) : Nat → Nat → Nat → Nat
  | _, 0, r => r
  | j, c+1, r => sumFlagsPlainGo Fl (j+1) c (r + (Fl j).toNat)

/-- `sequence::sumFlagsSerial(Fl, n)` (lines 354-371).  The C guard is
`n >= 128 && (n & 511) == 0 && ((long)Fl & 3) == 0`; the pointer-alignment
conjunct is abstracted as the boolean `aligned` (a pure function cannot
observe addresses; both branches are proved to agree, so the abstraction is
harmless for every caller). -/
def sumFlagsSerial (Fl : Nat → Bool) (n : Nat) (aligned : Bool) : Nat :=
  if 128 ≤ n ∧ n % 512 = 0 ∧ aligned = true then sumFlagsFastGo Fl 0 (n >>> 9) 0
  else sumFlagsPlainGo Fl 0 n 0

/-! #### pack (lines 373-402) -/

/-- Loop of `sequence::packSerial`: `for (i = s; i < e; i++) if (Fl[i])
Out[k++] = f(i)`, with `k` carried as an absolute position so that the
pointer-shifted call `packSerial(Out + Sums[i], ...)` of phase 4 is the same
loop started at `k = Sums[i]`. -/
def packGo {α : Type} (ff : Nat → α) (Fl : Nat → Bool) :
    Nat → Nat → Nat → (Nat → α) → (Nat → α) × Nat
  | _, 0, k, Out => (Out, k)
  | i, c+1, k, Out =>
      if Fl i then packGo ff Fl (i+1) c (k+1) (Function.update Out k (ff i))
      else packGo ff Fl (i+1) c k Out

/-- `sequence::packSerial(Out, Fl, s, e, f)` (lines 373-384).  A `NULL`
destination (`Out = none`) is replaced by a freshly allocated buffer of
`sumFlagsSerial(Fl + s, e - s)` elements, modelled as the everywhere-`dflt`
function (`newA` returns uninitialised storage; every cell below the
returned length is overwritten before the sequence is read). -/
def packSerial {α : Type} (Out : Option (Nat → α)) (dflt : α) (Fl : Nat → Bool)
    (s e : Nat) (ff : Nat → α) : (Nat → α) × Nat :=
  packGo ff Fl s (e - s) 0 (Out.getD (fun _ => dflt))

/-- `sequence::pack(Out, Fl, s, e, f)` (lines 386-402) with block size
`_F_BSIZE = 2 * _SCAN_BSIZE`.  Phase 1 counts each block's flags
(`Sums[i] = sumFlagsSerial(Fl + s, e - s)` over the block bounds); phase 2
is the aliased `plusScan(Sums, Sums, l)`, i.e. `scanIP` with addition;
phase 3 allocates if needed; phase 4 packs each block at its offset. -/
def pack {α : Type} (bsize : Nat) (Out : Option (Nat → α)) (dflt : α)
    (Fl : Nat → Bool) (s e : Nat) (ff : Nat → α) (aligned : Bool) : (Nat → α) × Nat :=
  if packGoesSerial bsize (e - s) then packSerial Out dflt Fl s e ff
  else
    let fb := 2 * bsize
    let l := nblocks (e - s) fb
    let Sums := fun i =>
      sumFlagsSerial (fun j => Fl (s + i * fb + j)) (min (s + i * fb + fb) e - (s + i * fb)) aligned
    let P := scanIP bsize Sums 0 l (fun a b => a + b) 0 false false
    (blockedFor
      (fun i B => (packGo ff Fl (s + i * fb) (min (s + i * fb + fb) e - (s + i * fb))
        (P.1 i) B).1) 0 l (Out.getD (fun _ => dflt)), P.2)

/-! #### writeMin (lines 445-452) and remDuplicates (lines 498-521) -/

/-- `writeMin(a, b)`: the CAS retry loop, which in the absence of
interference resolves in one step — a no-op returning `false` when the
stored value is already `≤ b`, otherwise storing `b` and returning `true`.
The pair is (new stored value, return flag). -/
def writeMin {α : Type} [LinearOrder α] (a b : α) : α × Bool :=
  if b < a then (b, true) else (a, false)

/-- Repeated `writeMin` proposals applied to one cell, one after another. -/
def writeMinFold {α : Type} [LinearOrder α] (v0 : α) (l : List α) : α :=
  l.foldl (fun s v => (writeMin s v).1) v0

/-- `UINT_E_MAX`, the sentinel: the maximum value of the 32-bit `uintE`. -/
def UINT_E_MAX : Nat := 2^32 - 1

/-- Phase 1 of `remDuplicates` (lines 504-509): for each entry with a valid
key whose flag slot is still the sentinel, CAS the entry index into the
slot.  Serialised in index order (one legal schedule; the postconditions
proved are schedule-independent, see the design note in spec §9). -/
def remDupPhase1 (keys : Nat → Nat) : Nat → Nat → (Nat → Nat) → (Nat → Nat)
  | _, 0, flags => flags
  | i, c+1, flags =>
      if keys i ≠ UINT_E_MAX ∧ flags (keys i) = UINT_E_MAX then
        remDupPhase1 keys (i+1) c (Function.update flags (keys i) i)
      else remDupPhase1 keys (i+1) c flags

/-- Phase 2 of `remDuplicates` (lines 511-520): winners (their index is
recorded in their key's flag slot) reset the slot to the sentinel; losers
overwrite their own key with the sentinel. -/
def remDupPhase2 : Nat → Nat → (Nat → Nat) → (Nat → Nat) → (Nat → Nat) × (Nat → Nat)
  | _, 0, keys, flags => (keys, flags)
  | i, c+1, keys, flags =>
      if keys i ≠ UINT_E_MAX then
        if flags (keys i) = i then
          remDupPhase2 (i+1) c keys (Function.update flags (keys i) UINT_E_MAX)
        else
          remDupPhase2 (i+1) c (Function.update keys i UINT_E_MAX) flags
      else remDupPhase2 (i+1) c keys flags

/-- `remDuplicates(get_key, flags, m, n)` (lines 502-521); returns the final
(entry keys, flags) state.  `n` is the key-domain bound of the contract. -/
def remDuplicates (keys flags : Nat → Nat) (m n : Nat) : (Nat → Nat) × (Nat → Nat) :=
  remDupPhase2 0 m keys (remDupPhase1 keys 0 m flags)

/-- The accumulated value written by the serial scan at an in-range index:
forward it is the fold of the seed with the elements before (through, if
inclusive) `j`; backward with the elements after (from, if inclusive) `j`. -/
def serialVal {α : Type} (f : α → α → α) (g : Nat → α) (r : α) (s e : Nat)
    (incl back : Bool) (j : Nat) : α :=
  if back then
    (if incl then foldGoRev f g r e (e - j) else foldGoRev f g r e (e - (j+1)))
  else
    (if incl then foldGo f g r s (j + 1 - s) else foldGo f g r s (j - s))

/-- The value the blocked scan's phase 3 writes at index `j`: the serial
scan value of `j`'s own block, seeded with that block's prefix `σ b`. -/
def blockWriteVal {α : Type} (f : α → α → α) (g : Nat → α) (σ : Nat → α)
    (bsize s e : Nat) (incl back : Bool) (j : Nat) : α :=
  serialVal f g (σ ((j - s) / bsize)) (s + ((j - s) / bsize) * bsize)
    (min (s + ((j - s) / bsize) * bsize + bsize) e) incl back j

/-- First index `< t` carrying key `k`, if any (used to reason about the
sequentialised CAS race of `remDuplicates` phase 1). -/
def firstWith (keys : Nat → Nat) (k : Nat) : Nat → Option Nat
  | 0 => none
  | t+1 => match firstWith keys k t with
      | some i => some i
      | none => if keys t = k then some t else none

/-- Number of set flags among byte lane `t` of `j` consecutive 32-bit words
starting at word index `q` (lane `t` of word `q` is flag `4*q + t`). -/
def laneCnt (Fl : Nat → Bool) (t : Nat) : Nat → Nat → Nat
  | _, 0 => 0
  | q, j+1 => (Fl (4*q + t)).toNat + laneCnt Fl t (q+1) j

/-- A combiner that keeps the first nonzero value: associative but not
commutative.  Used to separate the reversed blocked scan from the mirrored
forward scan. -/
def cexF (a b : Nat) : Nat := if a = 0 then b else a

/-- A length-2049 input (three `_SCAN_BSIZE = 1024` blocks) whose only
nonzero entries are at 1024 and 2047. -/
def cexIn (i : Nat) : Nat := if i = 1024 then 7 else if i = 2047 then 9 else 0

/-! ### Basic fold lemmas -/

theorem foldGo_last {α : Type} (f : α → α → α) (g : Nat → α) :
    ∀ (k : Nat) (z : α) (i : Nat), foldGo f g z i (k+1) = f (foldGo f g z i k) (g (i+k)) := by
  intro k
  induction k with
  | zero => intro z i; simp [foldGo]
  | succ k ih =>
      intro z i
      rw [foldGo, ih, foldGo]
      have h : i + 1 + k = i + (k + 1) := by omega
      rw [h]

theorem foldGo_add {α : Type} (f : α → α → α) (g : Nat → α) :
    ∀ (a b : Nat) (z : α) (i : Nat),
      foldGo f g z i (a + b) = foldGo f g (foldGo f g z i a) (i + a) b := by
  intro a
  induction a with
  | zero => intro b z i; simp [foldGo]
  | succ a ih =>
      intro b z i
      have h1 : a + 1 + b = (a + b) + 1 := by omega
      rw [h1]
      show foldGo f g (f z (g i)) (i+1) (a + b) = _
      rw [ih]
      show _ = foldGo f g (foldGo f g (f z (g i)) (i+1) a) (i + (a+1)) b
      have h2 : i + 1 + a = i + (a + 1) := by omega
      rw [h2]

theorem foldRange_split {α : Type} (f : α → α → α) (z : α) (g : Nat → α)
    {s m e : Nat} (hm1 : s ≤ m) (hm2 : m ≤ e) :
    foldRange f z g s e = foldRange f (foldRange f z g s m) g m e := by
  unfold foldRange
  have h1 : e - s = (m - s) + (e - m) := by omega
  rw [h1, foldGo_add]
  have h2 : s + (m - s) = m := by omega
  rw [h2]

theorem foldRange_empty {α : Type} (f : α → α → α) (z : α) (g : Nat → α)
    {s e : Nat} (h : e ≤ s) : foldRange f z g s e = z := by
  unfold foldRange
  have h1 : e - s = 0 := by omega
  rw [h1]
  rfl

theorem foldRange_succ_last {α : Type} (f : α → α → α) (z : α) (g : Nat → α)
    {s e : Nat} (h : s ≤ e) : foldRange f z g s (e+1) = f (foldRange f z g s e) (g e) := by
  unfold foldRange
  have h1 : e + 1 - s = (e - s) + 1 := by omega
  rw [h1, foldGo_last]
  have h2 : s + (e - s) = e := by omega
  rw [h2]

/-! ### Folds under associativity / commutativity -/

theorem reduceGo_assoc {α : Type} (f : α → α → α)
    (hf : ∀ a b c, f (f a b) c = f a (f b c)) (g : Nat → α) :
    ∀ (k i : Nat) (z r : α), f z (reduceGo f g i k r) = foldGo f g (f z r) i k := by
  intro k
  induction k with
  | zero => intro i z r; rfl
  | succ k ih =>
      intro i z r
      show f z (reduceGo f g (i+1) k (f r (g i))) = foldGo f g (f (f z r) (g i)) (i+1) k
      rw [ih, hf]

/-- Under associativity, folding the zero into a serial reduction over a
nonempty range gives the left fold of the zero with the range. -/
theorem reduceSerial_foldRange {α : Type} (f : α → α → α)
    (hf : ∀ a b c, f (f a b) c = f a (f b c)) (g : Nat → α) {s e : Nat} (h : s < e)
    (z : α) : f z (reduceSerial s e f g) = foldRange f z g s e := by
  unfold reduceSerial foldRange
  rw [reduceGo_assoc f hf]
  have h1 : e - s = (e - (s+1)) + 1 := by omega
  rw [h1]
  show _ = foldGo f g (f z (g s)) (s+1) (e - (s+1))
  rfl

theorem foldGo_pull {α : Type} (f : α → α → α)
    (hf : ∀ a b c, f (f a b) c = f a (f b c)) (hc : ∀ a b, f a b = f b a)
    (g : Nat → α) : ∀ (k i : Nat) (z a : α),
      foldGo f g (f z a) i k = f (foldGo f g z i k) a := by
  intro k
  induction k with
  | zero => intro i z a; rfl
  | succ k ih =>
      intro i z a
      show foldGo f g (f (f z a) (g i)) (i+1) k = f (foldGo f g (f z (g i)) (i+1) k) a
      have h1 : f (f z a) (g i) = f (f z (g i)) a := by
        rw [hf, hf, hc a (g i)]
      rw [h1, ih]

theorem foldGoRev_eq_foldGo {α : Type} (f : α → α → α)
    (hf : ∀ a b c, f (f a b) c = f a (f b c)) (hc : ∀ a b, f a b = f b a)
    (g : Nat → α) : ∀ (k i : Nat), k ≤ i → ∀ (z : α),
      foldGoRev f g z i k = foldGo f g z (i - k) k := by
  intro k
  induction k with
  | zero => intro i _ z; rfl
  | succ k ih =>
      intro i hk z
      show foldGoRev f g (f z (g (i-1))) (i-1) k = _
      rw [ih (i-1) (by omega), foldGo_pull f hf hc, foldGo_last]
      have h1 : i - 1 - k = i - (k+1) := by omega
      have h2 : i - (k+1) + k = i - 1 := by omega
      rw [h1, h2]

theorem foldGo_swap {α : Type} (f : α → α → α)
    (hf : ∀ a b c, f (f a b) c = f a (f b c)) (hc : ∀ a b, f a b = f b a)
    (g1 g2 : Nat → α) : ∀ (k1 i1 k2 i2 : Nat) (z : α),
      foldGo f g1 (foldGo f g2 z i2 k2) i1 k1
        = foldGo f g2 (foldGo f g1 z i1 k1) i2 k2 := by
  intro k1
  induction k1 with
  | zero => intro i1 k2 i2 z; rfl
  | succ k1 ih =>
      intro i1 k2 i2 z
      show foldGo f g1 (f (foldGo f g2 z i2 k2) (g1 i1)) (i1+1) k1 = _
      have h1 : f (foldGo f g2 z i2 k2) (g1 i1) = foldGo f g2 (f z (g1 i1)) i2 k2 := by
        rw [foldGo_pull f hf hc]
      rw [h1, ih]
      rfl

/-! ### Characterisation of the serial scan loops -/

theorem scanGoF_snd {α : Type} (f : α → α → α) (g : Nat → α) (incl : Bool) :
    ∀ (k i : Nat) (r : α) (Out : Nat → α),
      (scanGoF f g incl i k r Out).2 = foldGo f g r i k := by
  intro k
  induction k with
  | zero => intro i r Out; rfl
  | succ k ih => intro i r Out; exact ih _ _ _

theorem scanGoF_fst_out {α : Type} (f : α → α → α) (g : Nat → α) (incl : Bool) :
    ∀ (k i : Nat) (r : α) (Out : Nat → α) (j : Nat), j < i ∨ i + k ≤ j →
      (scanGoF f g incl i k r Out).1 j = Out j := by
  intro k
  induction k with
  | zero => intro i r Out j _; rfl
  | succ k ih =>
      intro i r Out j hj
      show (scanGoF f g incl (i+1) k (f r (g i)) _).1 j = _
      rw [ih (i+1) _ _ j (by omega)]
      exact Function.update_noteq (by omega) _ _

theorem scanGoF_fst_in {α : Type} (f : α → α → α) (g : Nat → α) (incl : Bool) :
    ∀ (k i : Nat) (r : α) (Out : Nat → α) (j : Nat), i ≤ j → j < i + k →
      (scanGoF f g incl i k r Out).1 j
        = (if incl then foldGo f g r i (j + 1 - i) else foldGo f g r i (j - i)) := by
  intro k
  induction k with
  | zero => intro i r Out j h1 h2; omega
  | succ k ih =>
      intro i r Out j h1 h2
      show (scanGoF f g incl (i+1) k (f r (g i)) _).1 j = _
      rcases Nat.eq_or_lt_of_le h1 with hji | hji
      · subst hji
        rw [scanGoF_fst_out f g incl k (i+1) _ _ i (by omega)]
        rw [Function.update_same]
        rcases incl with _ | _
        · simp only [Bool.false_eq_true, if_false]
          have h3 : i - i = 0 := by omega
          rw [h3]; rfl
        · simp only [if_true]
          have h3 : i + 1 - i = 1 := by omega
          rw [h3]; rfl
      · rw [ih (i+1) _ _ j (by omega) (by omega)]
        have e1 : j + 1 - i = (j - (i+1)) + 1 + 1 := by omega
        have e2 : j - i = (j - (i+1)) + 1 := by omega
        have e3 : j + 1 - (i+1) = (j - (i+1)) + 1 := by omega
        rw [e1, e2, e3]
        rcases incl with _ | _ <;> rfl

theorem scanGoB_snd {α : Type} (f : α → α → α) (g : Nat → α) (incl : Bool) :
    ∀ (k i : Nat) (r : α) (Out : Nat → α),
      (scanGoB f g incl i k r Out).2 = foldGoRev f g r i k := by
  intro k
  induction k with
  | zero => intro i r Out; rfl
  | succ k ih => intro i r Out; exact ih _ _ _

theorem scanGoB_fst_out {α : Type} (f : α → α → α) (g : Nat → α) (incl : Bool) :
    ∀ (k i : Nat), k ≤ i → ∀ (r : α) (Out : Nat → α) (j : Nat), j < i - k ∨ i ≤ j →
      (scanGoB f g incl i k r Out).1 j = Out j := by
  intro k
  induction k with
  | zero => intro i _ r Out j _; rfl
  | succ k ih =>
      intro i hk r Out j hj
      show (scanGoB f g incl (i-1) k (f r (g (i-1))) _).1 j = _
      rw [ih (i-1) (by omega) _ _ j (by omega)]
      exact Function.update_noteq (by omega) _ _

theorem scanGoB_fst_in {α : Type} (f : α → α → α) (g : Nat → α) (incl : Bool) :
    ∀ (k i : Nat), k ≤ i → ∀ (r : α) (Out : Nat → α) (j : Nat), i - k ≤ j → j < i →
      (scanGoB f g incl i k r Out).1 j
        = (if incl then foldGoRev f g r i (i - j) else foldGoRev f g r i (i - (j+1))) := by
  intro k
  induction k with
  | zero => intro i _ r Out j h1 h2; omega
  | succ k ih =>
      intro i hk r Out j h1 h2
      show (scanGoB f g incl (i-1) k (f r (g (i-1))) _).1 j = _
      by_cases hji : j = i - 1
      · subst hji
        rw [scanGoB_fst_out f g incl k (i-1) (by omega) _ _ (i-1) (by omega)]
        rw [Function.update_same]
        have e1 : i - (i - 1) = 1 := by omega
        have e2 : i - (i - 1 + 1) = 0 := by omega
        rw [e1, e2]
        rcases incl with _ | _ <;> rfl
      · rw [ih (i-1) (by omega) _ _ j (by omega) (by omega)]
        have e1 : i - j = ((i-1) - j) + 1 := by omega
        have e2 : i - (j+1) = ((i-1) - (j+1)) + 1 := by omega
        rw [e1, e2]
        rcases incl with _ | _ <;> rfl

/-! ### The in-place serial scan agrees with the pure-getter one -/

theorem scanIPGoF_eq {α : Type} (f : α → α → α) (incl : Bool) (B : Nat → α) :
    ∀ (k i : Nat) (r : α) (A : Nat → α), (∀ j, i ≤ j → j < i + k → A j = B j) →
      scanIPGoF f incl i k r A = scanGoF f B incl i k r A := by
  intro k
  induction k with
  | zero => intro i r A _; rfl
  | succ k ih =>
      intro i r A hA
      show scanIPGoF f incl (i+1) k (f r (A i)) _ = scanGoF f B incl (i+1) k (f r (B i)) _
      have hAi : A i = B i := hA i (by omega) (by omega)
      rw [hAi]
      exact ih (i+1) _ _ (fun j hj1 hj2 => by
        rw [Function.update_noteq (by omega)]
        exact hA j (by omega) (by omega))

theorem scanIPGoB_eq {α : Type} (f : α → α → α) (incl : Bool) (B : Nat → α) :
    ∀ (k i : Nat), k ≤ i → ∀ (r : α) (A : Nat → α),
      (∀ j, i - k ≤ j → j < i → A j = B j) →
      scanIPGoB f incl i k r A = scanGoB f B incl i k r A := by
  intro k
  induction k with
  | zero => intro i _ r A _; rfl
  | succ k ih =>
      intro i hk r A hA
      show scanIPGoB f incl (i-1) k (f r (A (i-1))) _
        = scanGoB f B incl (i-1) k (f r (B (i-1))) _
      have hAi : A (i-1) = B (i-1) := hA (i-1) (by omega) (by omega)
      rw [hAi]
      exact ih (i-1) (by omega) _ _ (fun j hj1 hj2 => by
        rw [Function.update_noteq (by omega)]
        exact hA j (by omega) (by omega))

/-- In-place serial scan = pure serial scan whenever the array agrees with
the pure getter on the scanned range. -/
theorem scanSerialIP_eq {α : Type} (A B : Nat → α) (s e : Nat) (f : α → α → α)
    (zero : α) (incl back : Bool) (hA : ∀ j, s ≤ j → j < e → A j = B j) :
    scanSerialIP A s e f zero incl back = scanSerial A s e f B zero incl back := by
  unfold scanSerialIP scanSerial
  rcases back with _ | _
  · simp only [Bool.false_eq_true, if_false]
    exact scanIPGoF_eq f incl B (e - s) s zero A (fun j h1 h2 => hA j h1 (by omega))
  · simp only [if_true]
    exact scanIPGoB_eq f incl B (e - s) e (by omega) zero A
      (fun j h1 h2 => hA j (by omega) h2)

/-! ### Characterisation of `scanSerial` -/

theorem scanSerial_snd {α : Type} (Out : Nat → α) (s e : Nat) (f : α → α → α)
    (g : Nat → α) (zero : α) (incl back : Bool) :
    (scanSerial Out s e f g zero incl back).2
      = if back then foldRangeRev f zero g s e else foldRange f zero g s e := by
  unfold scanSerial foldRangeRev foldRange
  rcases back with _ | _
  · simp only [Bool.false_eq_true, if_false]
    exact scanGoF_snd f g incl (e - s) s zero Out
  · simp only [if_true]
    exact scanGoB_snd f g incl (e - s) e zero Out

theorem scanSerial_fst_out {α : Type} (Out : Nat → α) (s e : Nat) (f : α → α → α)
    (g : Nat → α) (zero : α) (incl back : Bool) (j : Nat) (hj : j < s ∨ e ≤ j) :
    (scanSerial Out s e f g zero incl back).1 j = Out j := by
  unfold scanSerial
  rcases back with _ | _
  · simp only [Bool.false_eq_true, if_false]
    exact scanGoF_fst_out f g incl (e - s) s zero Out j (by omega)
  · simp only [if_true]
    rcases Nat.le_total s e with he | he
    · exact scanGoB_fst_out f g incl (e - s) e (by omega) zero Out j (by omega)
    · have h0 : e - s = 0 := by omega
      rw [h0]
      rfl

theorem scanSerial_fst_in {α : Type} (Out : Nat → α) (s e : Nat) (f : α → α → α)
    (g : Nat → α) (zero : α) (incl back : Bool) (j : Nat) (h1 : s ≤ j) (h2 : j < e) :
    (scanSerial Out s e f g zero incl back).1 j = serialVal f g zero s e incl back j := by
  unfold scanSerial serialVal
  rcases back with _ | _
  · simp only [Bool.false_eq_true, if_false]
    exact scanGoF_fst_in f g incl (e - s) s zero Out j h1 (by omega)
  · simp only [if_true]
    exact scanGoB_fst_in f g incl (e - s) e (by omega) zero Out j (by omega) h2

/-! ### Block-partition arithmetic -/

theorem nblocks_pos (n bsize : Nat) : 1 ≤ nblocks n bsize :=
  Nat.le_add_right 1 _

theorem nblocks_zero (bsize : Nat) : nblocks 0 bsize = 1 := by
  unfold nblocks
  simp

/-- Once `nblocks` reports at least two blocks, it is strictly below the
range length (for any real block size `≥ 2`): the blocked recursion shrinks. -/
theorem nblocks_lt_of_two_le {n bsize : Nat} (hb : 2 ≤ bsize)
    (h2 : 2 ≤ nblocks n bsize) : nblocks n bsize < n := by
  unfold nblocks at *
  have h1 : 1 ≤ (n - 1) / bsize := by omega
  have h3 : bsize ≤ n - 1 := by
    by_contra hcon
    rw [Nat.div_eq_of_lt (by omega)] at h1
    omega
  have h4 : (n - 1) / bsize ≤ (n - 1) / 2 := Nat.div_le_div_left hb (by omega)
  have h5 : (n - 1) / 2 ≤ (n - 1 ) / 2 := le_refl _
  have h6 : (n - 1) / 2 * 2 ≤ n - 1 := Nat.div_mul_le_self _ _
  omega

theorem block_lt_e {bsize s e i : Nat} (hb : 1 ≤ bsize) (hn : 1 ≤ e - s)
    (hi : i < nblocks (e - s) bsize) : s + i * bsize < e := by
  unfold nblocks at hi
  have h1 : i ≤ (e - s - 1) / bsize := by omega
  have h2 : i * bsize ≤ e - s - 1 := by
    have := (Nat.le_div_iff_mul_le (by omega : 0 < bsize)).1 h1
    omega
  omega

theorem block_end_eq {bsize s e i : Nat} (hi : i + 1 < nblocks (e - s) bsize)
    (hb : 1 ≤ bsize) : min (s + i * bsize + bsize) e = s + (i + 1) * bsize := by
  have hn : 1 ≤ e - s := by
    by_contra hcon
    have : e - s = 0 := by omega
    rw [this, nblocks_zero] at hi
    omega
  have h1 : s + (i + 1) * bsize < e := block_lt_e hb hn hi
  have h2 : s + i * bsize + bsize = s + (i + 1) * bsize := by ring
  rw [h2]
  omega

theorem e_le_blocks_end {bsize s e : Nat} (hb : 1 ≤ bsize) :
    e ≤ s + (nblocks (e - s) bsize) * bsize := by
  rcases Nat.le_total e s with he | he
  · have h1 : bsize ≤ nblocks (e - s) bsize * bsize :=
      Nat.le_mul_of_pos_left _ (nblocks_pos _ _)
    omega
  · unfold nblocks
    have hd := Nat.div_add_mod (e - s - 1) bsize
    have hm : (e - s - 1) % bsize < bsize := Nat.mod_lt _ (by omega)
    have hmul : (1 + (e - s - 1) / bsize) * bsize
        = bsize + bsize * ((e - s - 1) / bsize) := by ring
    omega

/-- The last block's upper end is `e`. -/
theorem last_block_end {bsize s e : Nat} (hb : 1 ≤ bsize) (hn : 1 ≤ e - s) :
    min (s + (nblocks (e - s) bsize - 1) * bsize + bsize) e = e := by
  have h1 := @e_le_blocks_end bsize s e hb
  have h2 : (nblocks (e - s) bsize - 1) * bsize + bsize
      = nblocks (e - s) bsize * bsize := by
    have h3 := nblocks_pos (e - s) bsize
    rcases Nat.exists_eq_add_of_le h3 with ⟨c, hc⟩
    have h4 : 1 + c - 1 = c := by omega
    rw [hc, h4]
    ring
  omega

/-! ### Fuel irrelevance and the aliased/pure scan correspondence -/

theorem scanGoesSerial_of_zero {bsize n : Nat} (h : n = 0) :
    scanGoesSerial bsize n = true := by
  subst h
  unfold scanGoesSerial
  rw [nblocks_zero]
  rfl

theorem scanIPFuel_irrel {α : Type} (bsize : Nat) (hb : 2 ≤ bsize) (f : α → α → α) :
    ∀ (fuel1 fuel2 : Nat) (A : Nat → α) (s e : Nat) (zero : α) (incl back : Bool),
      e - s ≤ fuel1 → e - s ≤ fuel2 →
      scanIPFuel bsize f fuel1 A s e zero incl back
        = scanIPFuel bsize f fuel2 A s e zero incl back := by
  intro fuel1
  induction fuel1 with
  | zero =>
      intro fuel2 A s e zero incl back h1 h2
      rcases fuel2 with _ | f2
      · rfl
      · show scanSerialIP A s e f zero incl back = _
        rw [scanIPFuel, if_pos (scanGoesSerial_of_zero (by omega))]
  | succ fuel1 ih =>
      intro fuel2 A s e zero incl back h1 h2
      by_cases hg : scanGoesSerial bsize (e - s) = true
      · rcases fuel2 with _ | f2
        · simp only [scanIPFuel]
          rw [if_pos hg]
        · simp only [scanIPFuel]
          rw [if_pos hg, if_pos hg]
      · have hn0 : e - s ≠ 0 := fun h => hg (scanGoesSerial_of_zero h)
        rcases fuel2 with _ | f2
        · omega
        · have hl : nblocks (e - s) bsize < e - s := by
            apply nblocks_lt_of_two_le hb
            unfold scanGoesSerial at hg
            simp only [decide_eq_true_eq] at hg
            omega
          simp only [scanIPFuel]
          rw [if_neg hg, if_neg hg]
          rw [ih f2]
          · omega
          · omega

/-- Index of the block containing `j`. -/
theorem blkIdx_eq {bsize s j i0 : Nat} (hb : 1 ≤ bsize) (h1 : s + i0 * bsize ≤ j)
    (h2 : j < s + i0 * bsize + bsize) : (j - s) / bsize = i0 := by
  apply Nat.div_eq_of_lt_le
  · omega
  · have e1 : (i0 + 1) * bsize = i0 * bsize + bsize := by ring
    omega

/-- Phase 3 of the pure blocked scan, characterised: blocks `[i0, i0+c)`
write their serial scan values over `[s + i0*bsize, min (s + (i0+c)*bsize) e)`
and leave everything else alone. -/
theorem blockedScan_char {α : Type} (f : α → α → α) (g : Nat → α) (σ : Nat → α)
    (bsize s e : Nat) (hb : 1 ≤ bsize) (incl back : Bool) :
    ∀ (c i0 : Nat) (A : Nat → α) (j : Nat),
      (blockedFor (fun i B =>
          (scanSerial B (s + i * bsize) (min (s + i * bsize + bsize) e) f g
            (σ i) incl back).1) i0 c A) j
        = if s + i0 * bsize ≤ j ∧ j < min (s + (i0 + c) * bsize) e
          then blockWriteVal f g σ bsize s e incl back j
          else A j := by
  intro c
  induction c with
  | zero =>
      intro i0 A j
      have e0 : (i0 + 0) * bsize = i0 * bsize := by ring
      rw [if_neg]
      · rfl
      · omega
  | succ c ih =>
      intro i0 A j
      have hstep := ih (i0+1)
        ((scanSerial A (s + i0 * bsize) (min (s + i0 * bsize + bsize) e) f g
          (σ i0) incl back).1) j
      have hL : (blockedFor (fun i B =>
            (scanSerial B (s + i * bsize) (min (s + i * bsize + bsize) e) f g
              (σ i) incl back).1) i0 (c+1) A) j
          = (blockedFor (fun i B =>
            (scanSerial B (s + i * bsize) (min (s + i * bsize + bsize) e) f g
              (σ i) incl back).1) (i0+1) c
            ((scanSerial A (s + i0 * bsize) (min (s + i0 * bsize + bsize) e) f g
              (σ i0) incl back).1)) j := rfl
      rw [hL, hstep]
      have e1 : (i0 + 1) * bsize = i0 * bsize + bsize := by ring
      have e2 : (i0 + 1 + c) * bsize = i0 * bsize + bsize + c * bsize := by ring
      have e3 : (i0 + (c + 1)) * bsize = i0 * bsize + bsize + c * bsize := by ring
      by_cases ha : s + (i0+1) * bsize ≤ j ∧ j < min (s + (i0 + 1 + c) * bsize) e
      · rw [if_pos ha, if_pos (by omega)]
      · rw [if_neg ha]
        by_cases hin : s + i0 * bsize ≤ j ∧ j < min (s + i0 * bsize + bsize) e
        · rw [scanSerial_fst_in _ _ _ _ _ _ _ _ _ hin.1 hin.2]
          rw [if_pos (by omega)]
          unfold blockWriteVal
          rw [blkIdx_eq hb hin.1 (by omega)]
        · rw [scanSerial_fst_out _ _ _ _ _ _ _ _ _ (by omega)]
          rw [if_neg (by omega)]

theorem blockedScan_IP_eq {α : Type} (f : α → α → α) (σ B : Nat → α)
    (bsize s e : Nat) (incl back : Bool) :
    ∀ (c i0 : Nat) (A : Nat → α), (∀ j, s + i0 * bsize ≤ j → A j = B j) →
      blockedFor (fun i C =>
          (scanSerialIP C (s + i * bsize) (min (s + i * bsize + bsize) e) f
            (σ i) incl back).1) i0 c A
        = blockedFor (fun i C =>
          (scanSerial C (s + i * bsize) (min (s + i * bsize + bsize) e) f B
            (σ i) incl back).1) i0 c A := by
  intro c
  induction c with
  | zero => intro i0 A _; rfl
  | succ c ih =>
      intro i0 A hA
      have hser : scanSerialIP A (s + i0 * bsize) (min (s + i0 * bsize + bsize) e) f
            (σ i0) incl back
          = scanSerial A (s + i0 * bsize) (min (s + i0 * bsize + bsize) e) f B
            (σ i0) incl back :=
        scanSerialIP_eq A B _ _ f (σ i0) incl back (fun j h1 _ => hA j h1)
      have hL : blockedFor (fun i C =>
            (scanSerialIP C (s + i * bsize) (min (s + i * bsize + bsize) e) f
              (σ i) incl back).1) i0 (c+1) A
          = blockedFor (fun i C =>
            (scanSerialIP C (s + i * bsize) (min (s + i * bsize + bsize) e) f
              (σ i) incl back).1) (i0+1) c
            ((scanSerialIP A (s + i0 * bsize) (min (s + i0 * bsize + bsize) e) f
              (σ i0) incl back).1) := rfl
      have hR : blockedFor (fun i C =>
            (scanSerial C (s + i * bsize) (min (s + i * bsize + bsize) e) f B
              (σ i) incl back).1) i0 (c+1) A
          = blockedFor (fun i C =>
            (scanSerial C (s + i * bsize) (min (s + i * bsize + bsize) e) f B
              (σ i) incl back).1) (i0+1) c
            ((scanSerial A (s + i0 * bsize) (min (s + i0 * bsize + bsize) e) f B
              (σ i0) incl back).1) := rfl
      rw [hL, hR, hser]
      apply ih (i0+1)
      intro j hj
      have e1 : (i0 + 1) * bsize = i0 * bsize + bsize := by ring
      rw [scanSerial_fst_out _ _ _ _ _ _ _ _ _ (by omega)]
      exact hA j (by omega)

/-- The fixpoint equation of the aliased scan: the fuel is invisible. -/
theorem scanIP_unfold {α : Type} (bsize : Nat) (hb : 2 ≤ bsize) (A : Nat → α)
    (s e : Nat) (f : α → α → α) (zero : α) (incl back : Bool) :
    scanIP bsize A s e f zero incl back
      = if scanGoesSerial bsize (e - s) = true then scanSerialIP A s e f zero incl back
        else
          (blockedFor (fun i B =>
            (scanSerialIP B (s + i * bsize) (min (s + i * bsize + bsize) e) f
              ((scanIP bsize
                (fun i => reduceSerial (s + i * bsize) (min (s + i * bsize + bsize) e) f A)
                0 (nblocks (e - s) bsize) f zero false back).1 i) incl back).1)
            0 (nblocks (e - s) bsize) A,
           (scanIP bsize
              (fun i => reduceSerial (s + i * bsize) (min (s + i * bsize + bsize) e) f A)
              0 (nblocks (e - s) bsize) f zero false back).2) := by
  unfold scanIP
  by_cases hg : scanGoesSerial bsize (e - s) = true
  · rw [if_pos hg]
    rcases he : e - s with _ | k
    · rfl
    · simp only [scanIPFuel]
      rw [if_pos hg]
  · have hn0 : e - s ≠ 0 := fun h => hg (scanGoesSerial_of_zero h)
    rw [if_neg hg]
    obtain ⟨k, he⟩ : ∃ k, e - s = k + 1 := ⟨e - s - 1, by omega⟩
    have hl : nblocks (e - s) bsize < e - s := by
      apply nblocks_lt_of_two_le hb
      unfold scanGoesSerial at hg
      simp only [decide_eq_true_eq] at hg
      omega
    rw [show scanIPFuel bsize f (e - s) A s e zero incl back
        = scanIPFuel bsize f (k+1) A s e zero incl back from by rw [he]]
    simp only [scanIPFuel]
    rw [if_neg hg]
    rw [scanIPFuel_irrel bsize hb f k (nblocks (e - s) bsize) _ 0 _ zero false back
      (by omega) (by omega)]
    simp only [Nat.sub_zero]

/-- The aliased scan computes exactly what the pure scan computes when the
destination is handed in as the getter as well. -/
theorem scanIP_eq_scan {α : Type} (bsize : Nat) (hb : 2 ≤ bsize) (A : Nat → α)
    (s e : Nat) (f : α → α → α) (zero : α) (incl back : Bool) :
    scanIP bsize A s e f zero incl back = scan bsize A s e f A zero incl back := by
  rw [scanIP_unfold bsize hb]
  unfold scan
  by_cases hg : scanGoesSerial bsize (e - s) = true
  · rw [if_pos hg, if_pos hg]
    exact scanSerialIP_eq A A s e f zero incl back (fun _ _ _ => rfl)
  · rw [if_neg hg, if_neg hg]
    simp only []
    rw [blockedScan_IP_eq f _ A bsize s e incl back (nblocks (e - s) bsize) 0 A
      (fun _ _ => rfl)]

/-! ### Correctness of the forward scan (associativity only) -/

/-- Prefix folds of the per-block partial sums are prefix folds of the
underlying range. -/
theorem sumsFold_eq {α : Type} (f : α → α → α)
    (hf : ∀ a b c, f (f a b) c = f a (f b c)) (g : Nat → α) (z : α)
    {bsize s e : Nat} (hb : 1 ≤ bsize) (hn : 1 ≤ e - s) :
    ∀ i, i ≤ nblocks (e - s) bsize →
      foldRange f z
        (fun i => reduceSerial (s + i * bsize) (min (s + i * bsize + bsize) e) f g) 0 i
      = foldRange f z g s (min (s + i * bsize) e) := by
  intro i
  induction i with
  | zero =>
      intro _
      have e0 : (0:Nat) * bsize = 0 := by ring
      rw [e0]
      rw [foldRange_empty f z _ (by omega), foldRange_empty f z g (by omega)]
  | succ i ih =>
      intro hi
      rw [foldRange_succ_last f z _ (by omega)]
      rw [ih (by omega)]
      have hblt : s + i * bsize < e := block_lt_e hb hn (by omega)
      have hmin1 : min (s + i * bsize) e = s + i * bsize := by omega
      rw [hmin1]
      have hbe : s + i * bsize < min (s + i * bsize + bsize) e := by omega
      rw [reduceSerial_foldRange f hf g hbe]
      rw [← foldRange_split f z g (by omega) (by omega)]
      have e1 : s + (i+1) * bsize = s + i * bsize + bsize := by ring
      rw [e1]

/-- Full characterisation of the pure forward scan, by strong induction on
the range length: the returned total is the fold of the whole range, the
written cells hold the exclusive (resp. inclusive) prefix folds, and cells
outside `[s, e)` are untouched. -/
theorem scan_fwd_char {α : Type} (bsize : Nat) (hb : 2 ≤ bsize) (f : α → α → α)
    (hf : ∀ a b c, f (f a b) c = f a (f b c)) :
    ∀ (n s e : Nat), e - s = n → ∀ (Out g : Nat → α) (z : α) (incl : Bool),
      ((scan bsize Out s e f g z incl false).2 = foldRange f z g s e) ∧
      (∀ j, (scan bsize Out s e f g z incl false).1 j
        = if s ≤ j ∧ j < e then
            (if incl then foldRange f z g s (j+1) else foldRange f z g s j)
          else Out j) := by
  intro n
  induction n using Nat.strong_induction_on with
  | _ n ih =>
    intro s e hn Out g z incl
    unfold scan
    by_cases hg : scanGoesSerial bsize (e - s) = true
    · rw [if_pos hg]
      constructor
      · rw [scanSerial_snd]
        rfl
      · intro j
        by_cases hj : s ≤ j ∧ j < e
        · rw [scanSerial_fst_in _ _ _ _ _ _ _ _ _ hj.1 hj.2, if_pos hj]
          unfold serialVal foldRange
          rcases incl with _ | _ <;> rfl
        · rw [scanSerial_fst_out _ _ _ _ _ _ _ _ _ (by omega), if_neg hj]
    · rw [if_neg hg]
      simp only []
      have hn1 : 1 ≤ e - s := by
        rcases Nat.eq_zero_or_pos (e - s) with h0 | h0
        · exact absurd (scanGoesSerial_of_zero h0) hg
        · exact h0
      have hl3 : 3 ≤ nblocks (e - s) bsize := by
        unfold scanGoesSerial at hg
        simp only [decide_eq_true_eq] at hg
        omega
      have hllt : nblocks (e - s) bsize < n := by
        have := nblocks_lt_of_two_le hb (n := e - s) (by omega)
        omega
      rw [scanIP_eq_scan bsize hb]
      obtain ⟨hP2, hP1⟩ := ih (nblocks (e - s) bsize) hllt 0 (nblocks (e - s) bsize)
        (by omega)
        (fun i => reduceSerial (s + i * bsize) (min (s + i * bsize + bsize) e) f g)
        (fun i => reduceSerial (s + i * bsize) (min (s + i * bsize + bsize) e) f g)
        z false
      have hmine : min (s + (nblocks (e - s) bsize) * bsize) e = e := by
        have := @e_le_blocks_end bsize s e (by omega)
        omega
      constructor
      · rw [hP2, sumsFold_eq f hf g z (by omega) hn1 _ (le_refl _), hmine]
      · intro j
        rw [blockedScan_char f g _ bsize s e (by omega) incl false _ 0 Out j]
        have e0 : (0:Nat) * bsize = 0 := by ring
        have e1 : (0 + nblocks (e - s) bsize) * bsize
            = nblocks (e - s) bsize * bsize := by ring
        by_cases hj : s ≤ j ∧ j < e
        · rw [if_pos (by omega), if_pos hj]
          unfold blockWriteVal serialVal
          have hblt : (j - s) / bsize < nblocks (e - s) bsize := by
            unfold nblocks
            have : (j - s) / bsize ≤ (e - s - 1) / bsize :=
              Nat.div_le_div_right (by omega)
            omega
          have hbsle : s + ((j - s) / bsize) * bsize ≤ j := by
            have := Nat.div_mul_le_self (j - s) bsize
            omega
          have hjlt : j < s + ((j - s) / bsize) * bsize + bsize := by
            have hd := Nat.div_add_mod (j - s) bsize
            have hm : (j - s) % bsize < bsize := Nat.mod_lt _ (by omega)
            have e2 : ((j - s) / bsize) * bsize = bsize * ((j - s) / bsize) := by ring
            omega
          have hmin1 : min (s + ((j - s) / bsize) * bsize) e
              = s + ((j - s) / bsize) * bsize := by omega
          have hσ := hP1 ((j - s) / bsize)
          rw [if_pos (⟨Nat.zero_le _, hblt⟩ : 0 ≤ (j - s) / bsize ∧
              (j - s) / bsize < nblocks (e - s) bsize)] at hσ
          simp only [Bool.false_eq_true, if_false] at hσ
          rw [sumsFold_eq f hf g z (by omega) hn1 _ (by omega), hmin1] at hσ
          simp only [Bool.false_eq_true, if_false]
          rw [hσ]
          rcases incl with _ | _
          · simp only [Bool.false_eq_true, if_false]
            rw [foldRange_split f z g (s := s) (m := s + ((j - s) / bsize) * bsize)
              (e := j) (by omega) (by omega)]
            rfl
          · simp only [if_true]
            rw [foldRange_split f z g (s := s) (m := s + ((j - s) / bsize) * bsize)
              (e := j + 1) (by omega) (by omega)]
            rfl
        · rw [if_neg (by omega), if_neg hj]

/-! ### Correctness of the reversed scan (associativity and commutativity) -/

theorem foldRangeRev_eq_foldRange {α : Type} (f : α → α → α)
    (hf : ∀ a b c, f (f a b) c = f a (f b c)) (hc : ∀ a b, f a b = f b a)
    (g : Nat → α) (z : α) (s e : Nat) :
    foldRangeRev f z g s e = foldRange f z g s e := by
  unfold foldRangeRev foldRange
  rw [foldGoRev_eq_foldGo f hf hc g (e - s) e (by omega)]
  rcases Nat.le_total s e with h | h
  · rw [show e - (e - s) = s from by omega]
  · rw [show e - s = 0 from by omega]
    rfl

theorem foldGoRev_suffix {α : Type} (f : α → α → α)
    (hf : ∀ a b c, f (f a b) c = f a (f b c)) (hc : ∀ a b, f a b = f b a)
    (g : Nat → α) (z : α) {j e : Nat} (h : j ≤ e) :
    foldGoRev f g z e (e - j) = foldRange f z g j e := by
  rw [foldGoRev_eq_foldGo f hf hc g (e - j) e (by omega)]
  rw [show e - (e - j) = j from by omega]
  rfl

/-- Suffix folds of the per-block partial sums are suffix folds of the
underlying range (associativity only; the block sums are forward folds and
are consumed here in increasing order). -/
theorem sumsFoldSuffix_eq {α : Type} (f : α → α → α)
    (hf : ∀ a b c, f (f a b) c = f a (f b c)) (g : Nat → α)
    {bsize s e : Nat} (hb : 1 ≤ bsize) (hn : 1 ≤ e - s) :
    ∀ (d i : Nat), i + d = nblocks (e - s) bsize → ∀ (z : α),
      foldRange f z
        (fun i => reduceSerial (s + i * bsize) (min (s + i * bsize + bsize) e) f g)
        i (nblocks (e - s) bsize)
      = foldRange f z g (min (s + i * bsize) e) e := by
  intro d
  induction d with
  | zero =>
      intro i hi z
      have hmine : min (s + (nblocks (e - s) bsize) * bsize) e = e := by
        have := @e_le_blocks_end bsize s e hb
        omega
      rw [foldRange_empty f z _ (by omega)]
      rw [← hi] at hmine
      simp only [Nat.add_zero] at hmine
      rw [hmine, foldRange_empty f z g (by omega)]
  | succ d ih =>
      intro i hi z
      have hil : i < nblocks (e - s) bsize := by omega
      have hblt : s + i * bsize < e := block_lt_e hb hn hil
      have hbe : s + i * bsize < min (s + i * bsize + bsize) e := by omega
      have hL : foldRange f z
          (fun i => reduceSerial (s + i * bsize) (min (s + i * bsize + bsize) e) f g)
          i (nblocks (e - s) bsize)
          = foldRange f
            (f z (reduceSerial (s + i * bsize) (min (s + i * bsize + bsize) e) f g))
            (fun i => reduceSerial (s + i * bsize) (min (s + i * bsize + bsize) e) f g)
            (i+1) (nblocks (e - s) bsize) := by
        unfold foldRange
        rw [show nblocks (e - s) bsize - i = (nblocks (e - s) bsize - (i+1)) + 1
          from by omega]
        rfl
      rw [hL, ih (i+1) (by omega)]
      rw [reduceSerial_foldRange f hf g hbe]
      have he1 : min (s + (i+1) * bsize) e = min (s + i * bsize + bsize) e := by
        have : s + (i+1) * bsize = s + i * bsize + bsize := by ring
        rw [this]
      rw [he1]
      rw [show min (s + i * bsize) e = s + i * bsize from by omega]
      rw [← foldRange_split f z g (by omega) (by omega)]

/-- Full characterisation of the pure reversed scan, by strong induction on
the range length; needs commutativity in addition to associativity because
the block sums of phase 1 are forward folds while phase 3 rescans each
block from its high end. -/
theorem scan_back_char {α : Type} (bsize : Nat) (hb : 2 ≤ bsize) (f : α → α → α)
    (hf : ∀ a b c, f (f a b) c = f a (f b c)) (hc : ∀ a b, f a b = f b a) :
    ∀ (n s e : Nat), e - s = n → ∀ (Out g : Nat → α) (z : α) (incl : Bool),
      ((scan bsize Out s e f g z incl true).2 = foldRange f z g s e) ∧
      (∀ j, (scan bsize Out s e f g z incl true).1 j
        = if s ≤ j ∧ j < e then
            (if incl then foldRange f z g j e else foldRange f z g (j+1) e)
          else Out j) := by
  intro n
  induction n using Nat.strong_induction_on with
  | _ n ih =>
    intro s e hn Out g z incl
    unfold scan
    by_cases hg : scanGoesSerial bsize (e - s) = true
    · rw [if_pos hg]
      constructor
      · rw [scanSerial_snd]
        simp only [if_true]
        exact foldRangeRev_eq_foldRange f hf hc g z s e
      · intro j
        by_cases hj : s ≤ j ∧ j < e
        · rw [scanSerial_fst_in _ _ _ _ _ _ _ _ _ hj.1 hj.2, if_pos hj]
          unfold serialVal
          simp only [if_true]
          rcases incl with _ | _
          · simp only [Bool.false_eq_true, if_false]
            exact foldGoRev_suffix f hf hc g z (by omega)
          · simp only [if_true]
            exact foldGoRev_suffix f hf hc g z (by omega)
        · rw [scanSerial_fst_out _ _ _ _ _ _ _ _ _ (by omega), if_neg hj]
    · rw [if_neg hg]
      simp only []
      have hn1 : 1 ≤ e - s := by
        rcases Nat.eq_zero_or_pos (e - s) with h0 | h0
        · exact absurd (scanGoesSerial_of_zero h0) hg
        · exact h0
      have hl3 : 3 ≤ nblocks (e - s) bsize := by
        unfold scanGoesSerial at hg
        simp only [decide_eq_true_eq] at hg
        omega
      have hllt : nblocks (e - s) bsize < n := by
        have := nblocks_lt_of_two_le hb (n := e - s) (by omega)
        omega
      rw [scanIP_eq_scan bsize hb]
      obtain ⟨hP2, hP1⟩ := ih (nblocks (e - s) bsize) hllt 0 (nblocks (e - s) bsize)
        (by omega)
        (fun i => reduceSerial (s + i * bsize) (min (s + i * bsize + bsize) e) f g)
        (fun i => reduceSerial (s + i * bsize) (min (s + i * bsize + bsize) e) f g)
        z false
      have hmine : min (s + (nblocks (e - s) bsize) * bsize) e = e := by
        have := @e_le_blocks_end bsize s e (by omega)
        omega
      constructor
      · rw [hP2, sumsFold_eq f hf g z (by omega) hn1 _ (le_refl _), hmine]
      · intro j
        rw [blockedScan_char f g _ bsize s e (by omega) incl true _ 0 Out j]
        have e0 : (0:Nat) * bsize = 0 := by ring
        have e1 : (0 + nblocks (e - s) bsize) * bsize
            = nblocks (e - s) bsize * bsize := by ring
        by_cases hj : s ≤ j ∧ j < e
        · rw [if_pos (by omega), if_pos hj]
          unfold blockWriteVal serialVal
          have hblt : (j - s) / bsize < nblocks (e - s) bsize := by
            unfold nblocks
            have : (j - s) / bsize ≤ (e - s - 1) / bsize :=
              Nat.div_le_div_right (by omega)
            omega
          have hbsle : s + ((j - s) / bsize) * bsize ≤ j := by
            have := Nat.div_mul_le_self (j - s) bsize
            omega
          have hjlt : j < s + ((j - s) / bsize) * bsize + bsize := by
            have hd := Nat.div_add_mod (j - s) bsize
            have hm : (j - s) % bsize < bsize := Nat.mod_lt _ (by omega)
            have e2 : ((j - s) / bsize) * bsize = bsize * ((j - s) / bsize) := by ring
            omega
          have hσ := hP1 ((j - s) / bsize)
          rw [if_pos (⟨Nat.zero_le _, hblt⟩ : 0 ≤ (j - s) / bsize ∧
              (j - s) / bsize < nblocks (e - s) bsize)] at hσ
          simp only [Bool.false_eq_true, if_false] at hσ
          rw [sumsFoldSuffix_eq f hf g (by omega) hn1
            (nblocks (e - s) bsize - ((j - s) / bsize + 1)) _ (by omega)] at hσ
          simp only [if_true]
          rw [hσ]
          have hjbe : j < min (s + ((j - s) / bsize) * bsize + bsize) e := by omega
          have he2 : min (s + ((j - s) / bsize + 1) * bsize) e
              = min (s + ((j - s) / bsize) * bsize + bsize) e := by
            have : s + ((j - s) / bsize + 1) * bsize
                = s + ((j - s) / bsize) * bsize + bsize := by ring
            rw [this]
          rcases incl with _ | _
          · simp only [Bool.false_eq_true, if_false]
            rw [foldGoRev_eq_foldGo f hf hc g _ _ (by omega)]
            rw [show min (s + (j - s) / bsize * bsize + bsize) e
                - (min (s + (j - s) / bsize * bsize + bsize) e - (j+1)) = j + 1
              from by omega]
            rw [he2]
            have hswap : foldGo f g
                (foldRange f z g (min (s + ((j - s) / bsize) * bsize + bsize) e) e)
                (j+1)
                (min (s + ((j - s) / bsize) * bsize + bsize) e - (j+1))
                = foldRange f
                  (foldRange f z g (j+1) (min (s + ((j - s) / bsize) * bsize + bsize) e))
                  g (min (s + ((j - s) / bsize) * bsize + bsize) e) e := by
              unfold foldRange
              rw [foldGo_swap f hf hc]
            rw [hswap, ← foldRange_split f z g (by omega) (by omega)]
          · simp only [if_true]
            rw [foldGoRev_eq_foldGo f hf hc g _ _ (by omega)]
            rw [show min (s + (j - s) / bsize * bsize + bsize) e
                - (min (s + (j - s) / bsize * bsize + bsize) e - j) = j
              from by omega]
            rw [he2]
            have hswap : foldGo f g
                (foldRange f z g (min (s + ((j - s) / bsize) * bsize + bsize) e) e)
                j
                (min (s + ((j - s) / bsize) * bsize + bsize) e - j)
                = foldRange f
                  (foldRange f z g j (min (s + ((j - s) / bsize) * bsize + bsize) e))
                  g (min (s + ((j - s) / bsize) * bsize + bsize) e) e := by
              unfold foldRange
              rw [foldGo_swap f hf hc]
            rw [hswap, ← foldRange_split f z g (by omega) (by omega)]
        · rw [if_neg (by omega), if_neg hj]

/-! ### Correctness of the blocked reduce (associativity only) -/

theorem reduceGo_last {α : Type} (f : α → α → α) (g : Nat → α) :
    ∀ (k i : Nat) (r : α), reduceGo f g i (k+1) r = f (reduceGo f g i k r) (g (i+k)) := by
  intro k
  induction k with
  | zero => intro i r; simp [reduceGo]
  | succ k ih =>
      intro i r
      show reduceGo f g (i+1) (k+1) (f r (g i)) = _
      rw [ih, show i + 1 + k = i + (k+1) from by omega]
      rfl

theorem reduceGo_add {α : Type} (f : α → α → α) (g : Nat → α) :
    ∀ (a b i : Nat) (r : α),
      reduceGo f g i (a + b) r = reduceGo f g (i + a) b (reduceGo f g i a r) := by
  intro a
  induction a with
  | zero => intro b i r; simp [reduceGo]
  | succ a ih =>
      intro b i r
      rw [show a + 1 + b = (a + b) + 1 from by omega]
      show reduceGo f g (i+1) (a + b) (f r (g i)) = _
      rw [ih, show i + 1 + a = i + (a + 1) from by omega]
      rfl

theorem reduceGo_absorb {α : Type} (f : α → α → α)
    (hf : ∀ a b c, f (f a b) c = f a (f b c)) (g : Nat → α) :
    ∀ (k i : Nat) (R r : α), f R (reduceGo f g i k r) = reduceGo f g i k (f R r) := by
  intro k
  induction k with
  | zero => intro i R r; rfl
  | succ k ih =>
      intro i R r
      show f R (reduceGo f g (i+1) k (f r (g i))) = reduceGo f g (i+1) k (f (f R r) (g i))
      rw [ih, hf]

theorem reduceSerial_merge {α : Type} (f : α → α → α)
    (hf : ∀ a b c, f (f a b) c = f a (f b c)) (g : Nat → α) {s m e : Nat}
    (h1 : s < m) (h2 : m < e) :
    f (reduceSerial s m f g) (reduceSerial m e f g) = reduceSerial s e f g := by
  unfold reduceSerial
  rw [reduceGo_absorb f hf]
  have hL : f (reduceGo f g (s+1) (m - (s+1)) (g s)) (g m)
      = reduceGo f g (m+1) 0 (f (reduceGo f g (s+1) (m - (s+1)) (g s)) (g m)) := rfl
  have hR : reduceGo f g (s+1) (e - (s+1)) (g s)
      = reduceGo f g m (e - m) (reduceGo f g (s+1) (m - (s+1)) (g s)) := by
    rw [show e - (s+1) = (m - (s+1)) + (e - m) from by omega]
    rw [reduceGo_add]
    rw [show s + 1 + (m - (s+1)) = m from by omega]
  rw [hR]
  show reduceGo f g (m+1) (e - (m+1)) (f _ (g m))
      = reduceGo f g m (e - m) _
  rw [show e - m = (e - (m+1)) + 1 from by omega]
  rfl

/-- The serial reduce of the per-block partial sums is the serial reduce of
the underlying range. -/
theorem reduceBlocks_eq {α : Type} (f : α → α → α)
    (hf : ∀ a b c, f (f a b) c = f a (f b c)) (g : Nat → α)
    {bsize s e : Nat} (hb : 1 ≤ bsize) (hn : 1 ≤ e - s) :
    ∀ (c : Nat), 1 ≤ c → c ≤ nblocks (e - s) bsize →
      reduceSerial 0 c f
        (fun i => reduceSerial (s + i * bsize) (min (s + i * bsize + bsize) e) f g)
      = reduceSerial s (min (s + c * bsize) e) f g := by
  intro c
  induction c with
  | zero => intro h _; omega
  | succ c ih =>
      intro _ hc
      rcases Nat.eq_zero_or_pos c with hc0 | hc0
      · subst hc0
        show (fun i => reduceSerial (s + i * bsize) (min (s + i * bsize + bsize) e) f g) 0
          = _
        simp only []
        rw [show s + 0 * bsize = s from by ring_nf, show s + 1 * bsize = s + bsize
          from by ring_nf]
      · have hcl : c < nblocks (e - s) bsize := by omega
        have hblt : s + c * bsize < e := block_lt_e hb hn hcl
        have hsnoc : reduceSerial 0 (c+1) f
              (fun i => reduceSerial (s + i * bsize) (min (s + i * bsize + bsize) e) f g)
            = f (reduceSerial 0 c f
                (fun i => reduceSerial (s + i * bsize) (min (s + i * bsize + bsize) e) f g))
                (reduceSerial (s + c * bsize) (min (s + c * bsize + bsize) e) f g) := by
          unfold reduceSerial
          rw [show c + 1 - (0+1) = (c - (0+1)) + 1 from by omega, reduceGo_last]
          rw [show 0 + 1 + (c - (0+1)) = c from by omega]
        rw [hsnoc, ih hc0 (by omega)]
        rw [show min (s + c * bsize) e = s + c * bsize from by omega]
        rw [reduceSerial_merge f hf g (by
            have : 1 * bsize ≤ c * bsize := Nat.mul_le_mul_right bsize hc0
            omega) (by omega)]
        rw [show s + (c+1) * bsize = s + c * bsize + bsize from by ring]

/-- `sequence::reduce` equals `sequence::reduceSerial` over the same
(nonempty) range, for an associative combiner and any block size `≥ 2`. -/
theorem reduceFuel_eq {α : Type} (bsize : Nat) (hb : 2 ≤ bsize) (f : α → α → α)
    (hf : ∀ a b c, f (f a b) c = f a (f b c)) :
    ∀ (fuel s e : Nat) (g : Nat → α), e - s ≤ fuel → s < e →
      reduceFuel bsize f fuel s e g = reduceSerial s e f g := by
  intro fuel
  induction fuel with
  | zero => intro s e g _ _; rfl
  | succ fuel ih =>
      intro s e g hfe hse
      by_cases hg : reduceGoesSerial bsize (e - s) = true
      · simp only [reduceFuel]
        rw [if_pos hg]
      · have hl2 : 2 ≤ nblocks (e - s) bsize := by
          unfold reduceGoesSerial at hg
          simp only [decide_eq_true_eq] at hg
          omega
        have hllt : nblocks (e - s) bsize < e - s := nblocks_lt_of_two_le hb hl2
        simp only [reduceFuel]
        rw [if_neg hg]
        rw [ih 0 (nblocks (e - s) bsize) _ (by omega) (by omega)]
        rw [reduceBlocks_eq f hf g (by omega) (by omega) _ (by omega) (le_refl _)]
        have hmine : min (s + (nblocks (e - s) bsize) * bsize) e = e := by
          have := @e_le_blocks_end bsize s e (by omega)
          omega
        rw [hmine]

theorem reduce_eq_reduceSerial {α : Type} (bsize : Nat) (hb : 2 ≤ bsize)
    (f : α → α → α) (hf : ∀ a b c, f (f a b) c = f a (f b c)) (g : Nat → α)
    {s e : Nat} (hse : s < e) :
    reduce bsize s e f g = reduceSerial s e f g :=
  reduceFuel_eq bsize hb f hf (e - s) s e g (le_refl _) hse

/-! ### sumFlagsSerial counts the set flags on both paths -/

theorem and255_eq_mod (x : Nat) : x &&& 255 = x % 256 := by
  have h := Nat.and_pow_two_sub_one_eq_mod x 8
  norm_num at h
  exact h

theorem shiftRight_eq_div (x k : Nat) : x >>> k = x / 2^k :=
  Nat.shiftRight_eq_div_pow x k

theorem flaggedGo_append (Fl : Nat → Bool) :
    ∀ (a b i : Nat), flaggedGo Fl i (a + b) = flaggedGo Fl i a ++ flaggedGo Fl (i + a) b := by
  intro a
  induction a with
  | zero => intro b i; simp [flaggedGo]
  | succ a ih =>
      intro b i
      rw [show a + 1 + b = (a + b) + 1 from by omega]
      show (if Fl i then i :: flaggedGo Fl (i+1) (a + b) else flaggedGo Fl (i+1) (a + b))
        = _
      rw [ih]
      rw [show i + (a + 1) = (i + 1) + a from by omega]
      rcases hF : Fl i with _ | _ <;> simp [flaggedGo, hF]

theorem sumFlagsPlainGo_eq (Fl : Nat → Bool) :
    ∀ (c i r : Nat), sumFlagsPlainGo Fl i c r = r + (flaggedGo Fl i c).length := by
  intro c
  induction c with
  | zero => intro i r; simp [sumFlagsPlainGo, flaggedGo]
  | succ c ih =>
      intro i r
      show sumFlagsPlainGo Fl (i+1) c (r + (Fl i).toNat) = _
      rw [ih]
      rcases hF : Fl i with _ | _ <;> simp [flaggedGo, hF] <;> omega

theorem rrGo_eq (Fl : Nat → Bool) :
    ∀ (j q rr : Nat), rrGo Fl q j rr
      = rr + (laneCnt Fl 0 q j + 2^8 * laneCnt Fl 1 q j + 2^16 * laneCnt Fl 2 q j
          + 2^24 * laneCnt Fl 3 q j) := by
  intro j
  induction j with
  | zero => intro q rr; simp [rrGo, laneCnt]
  | succ j ih =>
      intro q rr
      show rrGo Fl (q+1) j (rr + packedFlags Fl q) = _
      rw [ih]
      simp only [laneCnt, packedFlags, Nat.add_zero]
      ring

theorem laneCnt_le (Fl : Nat → Bool) (t : Nat) :
    ∀ (j q : Nat), laneCnt Fl t q j ≤ j := by
  intro j
  induction j with
  | zero => intro q; simp [laneCnt]
  | succ j ih =>
      intro q
      show (Fl (4*q + t)).toNat + laneCnt Fl t (q+1) j ≤ j + 1
      have h1 : (Fl (4*q + t)).toNat ≤ 1 := by
        rcases Fl (4*q + t) with _ | _ <;> simp
      have h2 := ih (q+1)
      omega

theorem flaggedGo_four (Fl : Nat → Bool) (v : Nat) :
    (flaggedGo Fl v 4).length
      = (Fl v).toNat + (Fl (v+1)).toNat + (Fl (v+2)).toNat + (Fl (v+3)).toNat := by
  rcases h0 : Fl v with _ | _ <;> rcases h1 : Fl (v+1) with _ | _ <;>
    rcases h2 : Fl (v+2) with _ | _ <;> rcases h3 : Fl (v+3) with _ | _ <;>
    simp [flaggedGo, h0, h1, h2, h3, show v+1+1 = v+2 from rfl,
      show v+1+1+1 = v+3 from rfl]

theorem flagged_lanes (Fl : Nat → Bool) :
    ∀ (j q : Nat), (flaggedGo Fl (4*q) (4*j)).length
      = laneCnt Fl 0 q j + laneCnt Fl 1 q j + laneCnt Fl 2 q j + laneCnt Fl 3 q j := by
  intro j
  induction j with
  | zero => intro q; simp [flaggedGo, laneCnt]
  | succ j ih =>
      intro q
      rw [show 4 * (j + 1) = 4 + 4 * j from by omega, flaggedGo_append]
      rw [List.length_append, flaggedGo_four]
      rw [show 4 * q + 4 = 4 * (q + 1) from by omega, ih (q+1)]
      simp only [laneCnt]
      rw [show 4 * q + 0 = 4 * q from by omega]
      omega

theorem lanes_extract {a b c d : Nat} (ha : a ≤ 128) (hb : b ≤ 128) (hc : c ≤ 128)
    (hd : d ≤ 128) :
    let rr := a + 2^8 * b + 2^16 * c + 2^24 * d
    (rr &&& 255) + ((rr >>> 8) &&& 255) + ((rr >>> 16) &&& 255) + ((rr >>> 24) &&& 255)
      = a + b + c + d := by
  simp only [and255_eq_mod, shiftRight_eq_div]
  norm_num
  omega

theorem sumFlagsFastGo_eq (Fl : Nat → Bool) :
    ∀ (k q r : Nat), sumFlagsFastGo Fl q k r = r + (flaggedGo Fl (4*q) (512*k)).length := by
  intro k
  induction k with
  | zero => intro q r; simp [sumFlagsFastGo, flaggedGo]
  | succ k ih =>
      intro q r
      show sumFlagsFastGo Fl (q + 128) k _ = _
      rw [ih]
      have hrr := rrGo_eq Fl 128 q 0
      rw [hrr]
      simp only [Nat.zero_add]
      rw [lanes_extract (laneCnt_le Fl 0 128 q) (laneCnt_le Fl 1 128 q)
        (laneCnt_le Fl 2 128 q) (laneCnt_le Fl 3 128 q)]
      rw [show 512 * (k + 1) = 4 * 128 + 512 * k from by omega, flaggedGo_append]
      rw [List.length_append]
      rw [show 4 * q + 4 * 128 = 4 * (q + 128) from by omega]
      rw [show (4:Nat) * 128 = 4 * 128 from rfl]
      rw [flagged_lanes Fl 128 q]
      omega

/-- `sequence::sumFlagsSerial` returns the number of set flags in `[0, n)`,
whichever branch the guard selects. -/
theorem sumFlagsSerial_eq (Fl : Nat → Bool) (n : Nat) (aligned : Bool) :
    sumFlagsSerial Fl n aligned = (flagged Fl 0 n).length := by
  unfold sumFlagsSerial flagged
  rw [Nat.sub_zero]
  by_cases hcond : 128 ≤ n ∧ n % 512 = 0 ∧ aligned = true
  · rw [if_pos hcond]
    rw [sumFlagsFastGo_eq]
    have h9 : n >>> 9 = n / 512 := by
      rw [shiftRight_eq_div]
      norm_num
    rw [h9]
    have h512 : 512 * (n / 512) = n := by
      have := Nat.div_add_mod n 512
      omega
    rw [h512]
    simp
  · rw [if_neg hcond, sumFlagsPlainGo_eq]
    simp

/-! ### Characterisation of the pack loop -/

theorem packGo_snd {α : Type} (ff : Nat → α) (Fl : Nat → Bool) :
    ∀ (c i k : Nat) (Out : Nat → α),
      (packGo ff Fl i c k Out).2 = k + (flaggedGo Fl i c).length := by
  intro c
  induction c with
  | zero => intro i k Out; simp [packGo, flaggedGo]
  | succ c ih =>
      intro i k Out
      show (if Fl i then packGo ff Fl (i+1) c (k+1) _ else packGo ff Fl (i+1) c k Out).2
        = _
      rcases hF : Fl i with _ | _
      · simp only [Bool.false_eq_true, if_false]
        rw [ih]
        simp [flaggedGo, hF]
      · simp only [if_true]
        rw [ih]
        simp [flaggedGo, hF]
        omega

theorem packGo_fst_out {α : Type} (ff : Nat → α) (Fl : Nat → Bool) :
    ∀ (c i k : Nat) (Out : Nat → α) (q : Nat),
      q < k ∨ k + (flaggedGo Fl i c).length ≤ q →
      (packGo ff Fl i c k Out).1 q = Out q := by
  intro c
  induction c with
  | zero => intro i k Out q _; rfl
  | succ c ih =>
      intro i k Out q hq
      show (if Fl i then packGo ff Fl (i+1) c (k+1) _ else packGo ff Fl (i+1) c k Out).1 q
        = _
      rcases hF : Fl i with _ | _
      · simp only [Bool.false_eq_true, if_false]
        rw [ih]
        simp only [flaggedGo, hF] at hq
        simp only [Bool.false_eq_true, if_false] at hq
        omega
      · simp only [if_true]
        simp only [flaggedGo, hF, if_true, List.length_cons] at hq
        rw [ih (i+1) (k+1) _ q (by omega)]
        exact Function.update_noteq (by omega) _ _

theorem packGo_fst_in {α : Type} (ff : Nat → α) (Fl : Nat → Bool) :
    ∀ (c i k : Nat) (Out : Nat → α) (p : Nat), p < (flaggedGo Fl i c).length →
      (packGo ff Fl i c k Out).1 (k + p) = ff ((flaggedGo Fl i c).getD p 0) := by
  intro c
  induction c with
  | zero => intro i k Out p hp; simp [flaggedGo] at hp
  | succ c ih =>
      intro i k Out p hp
      show (if Fl i then packGo ff Fl (i+1) c (k+1) _ else packGo ff Fl (i+1) c k Out).1 _
        = _
      rcases hF : Fl i with _ | _
      · simp only [Bool.false_eq_true, if_false]
        simp only [flaggedGo, hF, Bool.false_eq_true, if_false] at hp ⊢
        exact ih (i+1) k Out p hp
      · simp only [if_true]
        simp only [flaggedGo, hF, if_true, List.length_cons] at hp ⊢
        rcases p with _ | p
        · rw [packGo_fst_out ff Fl c (i+1) (k+1) _ (k+0) (by omega)]
          simp only [Nat.add_zero, Function.update_same, List.getD_cons_zero]
        · rw [show k + (p + 1) = (k + 1) + p from by omega]
          rw [ih (i+1) (k+1) _ p (by omega)]
          simp only [List.getD_cons_succ]

/-! ### Flag-count bookkeeping -/

theorem flagged_len_add (Fl : Nat → Bool) {s a b : Nat} (h1 : s ≤ a) (h2 : a ≤ b) :
    (flagged Fl s b).length = (flagged Fl s a).length + (flagged Fl a b).length := by
  unfold flagged
  rw [show b - s = (a - s) + (b - a) from by omega, flaggedGo_append]
  rw [show s + (a - s) = a from by omega]
  simp

theorem flagged_getD_mid (Fl : Nat → Bool) {s a b e q : Nat} (h1 : s ≤ a) (h2 : a ≤ b)
    (h3 : b ≤ e) (hq1 : (flagged Fl s a).length ≤ q)
    (hq2 : q < (flagged Fl s a).length + (flagged Fl a b).length) :
    (flagged Fl s e).getD q 0 = (flagged Fl a b).getD (q - (flagged Fl s a).length) 0 := by
  have hsplit : flagged Fl s e = flagged Fl s a ++ (flagged Fl a b ++ flagged Fl b e) := by
    unfold flagged
    rw [show e - s = (a - s) + ((b - a) + (e - b)) from by omega, flaggedGo_append,
      flaggedGo_append]
    rw [show s + (a - s) = a from by omega, show a + (b - a) = b from by omega]
  rw [hsplit]
  rw [List.getD_append_right _ _ _ _ (by omega)]
  rw [List.getD_append _ _ _ _ (by omega)]

theorem flaggedGo_shift (Fl : Nat → Bool) (b : Nat) :
    ∀ (c i : Nat), (flaggedGo (fun j => Fl (b + j)) i c).length
      = (flaggedGo Fl (b + i) c).length := by
  intro c
  induction c with
  | zero => intro i; rfl
  | succ c ih =>
      intro i
      show (if Fl (b + i) then i :: flaggedGo (fun j => Fl (b + j)) (i+1) c
        else flaggedGo (fun j => Fl (b + j)) (i+1) c).length = _
      rcases hF : Fl (b + i) with _ | _ <;>
        simp only [flaggedGo, hF, Bool.false_eq_true, if_false, if_true,
          List.length_cons] <;>
        rw [ih (i+1), show b + (i+1) = b + i + 1 from by omega]

/-- The per-block flag count of `sequence::pack` phase 1, resolved. -/
theorem packSums_resolved (Fl : Nat → Bool) (aligned : Bool) {fb s e : Nat} (i : Nat) :
    sumFlagsSerial (fun j => Fl (s + i * fb + j)) (min (s + i * fb + fb) e - (s + i * fb))
      aligned
      = (flagged Fl (s + i * fb) (min (s + i * fb + fb) e)).length := by
  rw [sumFlagsSerial_eq]
  unfold flagged
  rw [Nat.sub_zero, flaggedGo_shift, Nat.add_zero]

/-- Prefix sums of the per-block flag counts are prefix flag counts. -/
theorem packSums_fold (Fl : Nat → Bool) (aligned : Bool) {fb s e : Nat}
    (hfb : 1 ≤ fb) (hn : 1 ≤ e - s) :
    ∀ i, i ≤ nblocks (e - s) fb →
      foldRange (fun a b => a + b) 0
        (fun i => sumFlagsSerial (fun j => Fl (s + i * fb + j))
          (min (s + i * fb + fb) e - (s + i * fb)) aligned) 0 i
      = (flagged Fl s (min (s + i * fb) e)).length := by
  intro i
  induction i with
  | zero =>
      intro _
      rw [foldRange_empty _ _ _ (by omega)]
      rw [show (0:Nat) * fb = 0 from by ring]
      rw [show min (s + 0) e = s from by omega]
      simp [flagged, flaggedGo]
  | succ i ih =>
      intro hi
      rw [foldRange_succ_last _ _ _ (by omega)]
      rw [ih (by omega)]
      rw [packSums_resolved]
      have hblt : s + i * fb < e := block_lt_e hfb hn (by omega)
      rw [show min (s + i * fb) e = s + i * fb from by omega]
      rw [← flagged_len_add Fl (by omega) (by omega)]
      rw [show s + (i+1) * fb = s + i * fb + fb from by ring]

/-- Phase 4 of `sequence::pack`, characterised: blocks `[i0, i0+c)` write the
packed elements into the offset window their prefix counts dictate. -/
theorem blockedPack_char {α : Type} (ff : Nat → α) (Fl : Nat → Bool)
    {fb s e : Nat} (hfb : 1 ≤ fb) (hn : 1 ≤ e - s) (σ : Nat → Nat) :
    ∀ (c i0 : Nat), i0 + c ≤ nblocks (e - s) fb →
      (∀ i, i0 ≤ i → i < i0 + c → σ i = (flagged Fl s (s + i * fb)).length) →
      ∀ (A : Nat → α) (q : Nat),
        (blockedFor (fun i B =>
            (packGo ff Fl (s + i * fb) (min (s + i * fb + fb) e - (s + i * fb))
              (σ i) B).1) i0 c A) q
        = if (flagged Fl s (s + i0 * fb)).length ≤ q ∧
              q < (flagged Fl s (min (s + (i0 + c) * fb) e)).length
          then ff ((flagged Fl s e).getD q 0)
          else A q := by
  intro c
  induction c with
  | zero =>
      intro i0 _ _ A q
      rw [if_neg]
      · rfl
      · rintro ⟨hq1, hq2⟩
        have hmono : (flagged Fl s (min (s + (i0 + 0) * fb) e)).length
            ≤ (flagged Fl s (s + i0 * fb)).length := by
          rcases Nat.le_total (s + i0 * fb) e with h | h
          · rw [show min (s + (i0 + 0) * fb) e = s + i0 * fb from by
              have : (i0 + 0) * fb = i0 * fb := by ring
              omega]
          · have hmin : min (s + (i0 + 0) * fb) e = e := by
              have : (i0 + 0) * fb = i0 * fb := by ring
              omega
            rw [hmin]
            rw [flagged_len_add Fl (show s ≤ e from by omega) h]
            omega
        omega
  | succ c ih =>
      intro i0 hc hσ A q
      have hi0l : i0 < nblocks (e - s) fb := by omega
      have hblt : s + i0 * fb < e := block_lt_e hfb hn hi0l
      have hbe1 : s + i0 * fb < min (s + i0 * fb + fb) e := by omega
      have hbe2 : min (s + i0 * fb + fb) e ≤ e := by omega
      -- the head step, resolved
      have hself := hσ i0 (le_refl _) (by omega)
      have hcnt : (flagged Fl s (min (s + i0 * fb + fb) e)).length
          = (flagged Fl s (s + i0 * fb)).length
            + (flagged Fl (s + i0 * fb) (min (s + i0 * fb + fb) e)).length :=
        flagged_len_add Fl (by omega) (by omega)
      have hL : (blockedFor (fun i B =>
            (packGo ff Fl (s + i * fb) (min (s + i * fb + fb) e - (s + i * fb))
              (σ i) B).1) i0 (c+1) A) q
          = (blockedFor (fun i B =>
            (packGo ff Fl (s + i * fb) (min (s + i * fb + fb) e - (s + i * fb))
              (σ i) B).1) (i0+1) c
            ((packGo ff Fl (s + i0 * fb) (min (s + i0 * fb + fb) e - (s + i0 * fb))
              (σ i0) A).1)) q := rfl
      rw [hL, ih (i0+1) (by omega) (fun i h1 h2 => hσ i (by omega) (by omega))]
      have hstepcnt : (flaggedGo Fl (s + i0 * fb)
            (min (s + i0 * fb + fb) e - (s + i0 * fb))).length
          = (flagged Fl (s + i0 * fb) (min (s + i0 * fb + fb) e)).length := rfl
      by_cases hwin : (flagged Fl s (s + i0 * fb)).length ≤ q ∧
          q < (flagged Fl s (min (s + i0 * fb + fb) e)).length
      · -- q is in the head block's window
        have hstepeq : flaggedGo Fl (s + i0 * fb)
              (min (s + i0 * fb + fb) e - (s + i0 * fb))
            = flagged Fl (s + i0 * fb) (min (s + i0 * fb + fb) e) := rfl
        have hplt : q - (flagged Fl s (s + i0 * fb)).length
            < (flaggedGo Fl (s + i0 * fb)
                (min (s + i0 * fb + fb) e - (s + i0 * fb))).length := by
          rw [hstepeq]
          omega
        have h1 := packGo_fst_in ff Fl
          (min (s + i0 * fb + fb) e - (s + i0 * fb)) (s + i0 * fb) (σ i0) A
          (q - (flagged Fl s (s + i0 * fb)).length) hplt
        rw [show σ i0
            + (q - (flagged Fl s (s + i0 * fb)).length) = q from by
          rw [hself]
          omega] at h1
        rw [hstepeq] at h1
        rw [← flagged_getD_mid Fl (s := s) (a := s + i0 * fb)
          (b := min (s + i0 * fb + fb) e) (e := e) (q := q)
          (show s ≤ s + i0 * fb from by omega) (by omega)
          (by omega) (by omega) (by omega)] at h1
        have hmono : (flagged Fl s (min (s + i0 * fb + fb) e)).length
            ≤ (flagged Fl s (min (s + (i0 + (c+1)) * fb) e)).length := by
          have hle : min (s + i0 * fb + fb) e ≤ min (s + (i0 + (c+1)) * fb) e := by
            have : (i0 + (c+1)) * fb = i0 * fb + fb + c * fb := by ring
            omega
          rw [flagged_len_add Fl (show s ≤ min (s + i0 * fb + fb) e from by omega) hle]
          omega
        rw [if_neg, if_pos (by constructor <;> omega)]
        · exact h1
        · -- not in the later blocks' window
          intro hcon
          have h2 : (flagged Fl s (min (s + i0 * fb + fb) e)).length
              ≤ (flagged Fl s (s + (i0+1) * fb)).length := by
            have h3 : min (s + i0 * fb + fb) e ≤ s + (i0+1) * fb := by
              have : (i0+1) * fb = i0 * fb + fb := by ring
              omega
            rw [flagged_len_add Fl (show s ≤ min (s + i0 * fb + fb) e from by omega) h3]
            omega
          omega
      · -- q is outside the head block's window
        by_cases hrest : (flagged Fl s (s + (i0+1) * fb)).length ≤ q ∧
            q < (flagged Fl s (min (s + (i0 + 1 + c) * fb) e)).length
        · rw [if_pos hrest, if_pos]
          constructor
          · have h1 : (flagged Fl s (s + i0 * fb)).length
                ≤ (flagged Fl s (s + (i0+1) * fb)).length := by
              have h2 : s + i0 * fb ≤ s + (i0+1) * fb := by
                have : (i0+1) * fb = i0 * fb + fb := by ring
                omega
              rw [flagged_len_add Fl (show s ≤ s + i0 * fb from by omega) h2]
              omega
            omega
          · have h1 : min (s + (i0 + 1 + c) * fb) e ≤ min (s + (i0 + (c+1)) * fb) e := by
              have e1 : (i0 + 1 + c) * fb = (i0 + (c+1)) * fb := by ring
              rw [e1]
            have h2 : (flagged Fl s (min (s + (i0 + 1 + c) * fb) e)).length
                ≤ (flagged Fl s (min (s + (i0 + (c+1)) * fb) e)).length := by
              rw [flagged_len_add Fl
                (show s ≤ min (s + (i0 + 1 + c) * fb) e from by omega) h1]
              omega
            omega
        · rw [if_neg hrest]
          rw [packGo_fst_out ff Fl _ _ _ _ _ (by
            rw [hself, hstepcnt]
            -- q < offset, or q beyond this block's window and not in the rest:
            -- then q is beyond everything
            by_cases hq1 : q < (flagged Fl s (s + i0 * fb)).length
            · exact Or.inl hq1
            · right
              omega)]
          rw [if_neg]
          intro hcon
          -- q in the grand window but in neither sub-window: impossible
          have hsplit1 : (flagged Fl s (s + (i0+1) * fb)).length
              = (flagged Fl s (min (s + i0 * fb + fb) e)).length
                + (flagged Fl (min (s + i0 * fb + fb) e) (s + (i0+1) * fb)).length := by
            apply flagged_len_add Fl (by omega)
            have : (i0+1) * fb = i0 * fb + fb := by ring
            omega
          rcases Nat.lt_or_ge ((i0 : Nat) + 1) (nblocks (e - s) fb) with hlast | hlast
          · -- there are more blocks: the windows tile
            have hbeq : min (s + i0 * fb + fb) e = s + (i0+1) * fb :=
              block_end_eq (by omega) hfb
            rw [hbeq] at hwin
            have hup : (flagged Fl s (min (s + (i0 + (c+1)) * fb) e)).length
                = (flagged Fl s (min (s + (i0 + 1 + c) * fb) e)).length := by
              have e1 : (i0 + 1 + c) * fb = (i0 + (c+1)) * fb := by ring
              rw [e1]
            omega
          · -- i0 is the last block: c = 0 and the window is the whole rest
            have hc0 : c = 0 := by omega
            subst hc0
            have hbeq : min (s + (i0 + 1) * fb) e = min (s + i0 * fb + fb) e := by
              have : (i0 + 1) * fb = i0 * fb + fb := by ring
              omega
            rw [hbeq] at hcon
            omega

/-- `sequence::pack` is a stable compaction: its length is the number of set
flags of `[s, e)` and its `p`-th element is the accessor applied to the
`p`-th set index, on the serial path and the blocked path alike. -/
theorem pack_spec {α : Type} (bsize : Nat) (hb : 2 ≤ bsize) (Out : Option (Nat → α))
    (dflt : α) (Fl : Nat → Bool) (s e : Nat) (ff : Nat → α) (aligned : Bool) :
    ((pack bsize Out dflt Fl s e ff aligned).2 = (flagged Fl s e).length) ∧
    (∀ p, p < (flagged Fl s e).length →
      (pack bsize Out dflt Fl s e ff aligned).1 p = ff ((flagged Fl s e).getD p 0)) := by
  unfold pack
  by_cases hg : packGoesSerial bsize (e - s) = true
  · rw [if_pos hg]
    unfold packSerial
    constructor
    · rw [packGo_snd]
      simp [flagged]
    · intro p hp
      have h1 := packGo_fst_in ff Fl (e - s) s 0 (Out.getD (fun _ => dflt)) p hp
      rw [Nat.zero_add] at h1
      exact h1
  · rw [if_neg hg]
    simp only []
    have hl2 : 2 ≤ nblocks (e - s) (2 * bsize) := by
      unfold packGoesSerial at hg
      simp only [decide_eq_true_eq] at hg
      omega
    have hn : 1 ≤ e - s := by
      by_contra hcon
      rw [show e - s = 0 from by omega, nblocks_zero] at hl2
      omega
    have hfb : 1 ≤ 2 * bsize := by omega
    rw [scanIP_eq_scan bsize hb]
    obtain ⟨hP2, hP1⟩ := scan_fwd_char bsize hb (fun a b => a + b)
      (fun a b c => Nat.add_assoc a b c) (nblocks (e - s) (2 * bsize)) 0
      (nblocks (e - s) (2 * bsize)) (by omega)
      (fun i => sumFlagsSerial (fun j => Fl (s + i * (2 * bsize) + j))
        (min (s + i * (2 * bsize) + (2 * bsize)) e - (s + i * (2 * bsize))) aligned)
      (fun i => sumFlagsSerial (fun j => Fl (s + i * (2 * bsize) + j))
        (min (s + i * (2 * bsize) + (2 * bsize)) e - (s + i * (2 * bsize))) aligned)
      0 false
    have hmine : min (s + (nblocks (e - s) (2 * bsize)) * (2 * bsize)) e = e := by
      have := @e_le_blocks_end (2 * bsize) s e hfb
      omega
    constructor
    · rw [hP2]
      rw [packSums_fold Fl aligned hfb hn _ (le_refl _), hmine]
    · intro p hp
      have hσ : ∀ i, 0 ≤ i → i < 0 + nblocks (e - s) (2 * bsize) →
          (scan bsize
            (fun i => sumFlagsSerial (fun j => Fl (s + i * (2 * bsize) + j))
              (min (s + i * (2 * bsize) + (2 * bsize)) e - (s + i * (2 * bsize))) aligned)
            0 (nblocks (e - s) (2 * bsize)) (fun a b => a + b)
            (fun i => sumFlagsSerial (fun j => Fl (s + i * (2 * bsize) + j))
              (min (s + i * (2 * bsize) + (2 * bsize)) e - (s + i * (2 * bsize))) aligned)
            0 false false).1 i
          = (flagged Fl s (s + i * (2 * bsize))).length := by
        intro i _ hi
        rw [hP1 i, if_pos (⟨Nat.zero_le _, by omega⟩ : 0 ≤ i ∧
          i < nblocks (e - s) (2 * bsize))]
        simp only [Bool.false_eq_true, if_false]
        rw [packSums_fold Fl aligned hfb hn i (by omega)]
        have hblt : s + i * (2 * bsize) < e := block_lt_e hfb hn (by omega)
        rw [show min (s + i * (2 * bsize)) e = s + i * (2 * bsize) from by omega]
      rw [blockedPack_char ff Fl hfb hn _ (nblocks (e - s) (2 * bsize)) 0
        (by omega) hσ _ p]
      have hC1 : (flagged Fl s (s + 0 * (2 * bsize))).length ≤ p := by
        rw [show s + 0 * (2 * bsize) = s from by ring]
        simp [flagged, flaggedGo]
      have hC2 : p < (flagged Fl s
          (min (s + (0 + nblocks (e - s) (2 * bsize)) * (2 * bsize)) e)).length := by
        have emin : min (s + (0 + nblocks (e - s) (2 * bsize)) * (2 * bsize)) e = e := by
          have e1 : (0 + nblocks (e - s) (2 * bsize)) * (2 * bsize)
              = nblocks (e - s) (2 * bsize) * (2 * bsize) := by ring
          omega
        rw [emin]
        exact hp
      rw [if_pos ⟨hC1, hC2⟩]

/-! ### writeMin -/

theorem writeMin_fst_min {α : Type} [LinearOrder α] (a b : α) :
    (writeMin a b).1 = min a b := by
  unfold writeMin
  rcases lt_or_ge b a with h | h
  · rw [if_pos h]
    exact (min_eq_right h.le).symm
  · rw [if_neg (not_lt.2 h)]
    exact (min_eq_left h).symm

theorem writeMinFold_eq_foldl_min {α : Type} [LinearOrder α] :
    ∀ (l : List α) (v0 : α), writeMinFold v0 l = l.foldl min v0 := by
  intro l
  induction l with
  | nil => intro v0; rfl
  | cons x t ih =>
      intro v0
      show writeMinFold ((writeMin v0 x).1) t = _
      rw [ih, writeMin_fst_min]
      rfl

theorem foldl_min_le {α : Type} [LinearOrder α] :
    ∀ (l : List α) (v0 : α) (x : α), x ∈ v0 :: l → l.foldl min v0 ≤ x := by
  intro l
  induction l with
  | nil =>
      intro v0 x hx
      rcases List.mem_cons.1 hx with h | h
      · subst h
        exact le_refl _
      · exact absurd h (List.not_mem_nil x)
  | cons y t ih =>
      intro v0 x hx
      show t.foldl min (min v0 y) ≤ x
      rcases List.mem_cons.1 hx with hx0 | hx1
      · rw [hx0]
        exact le_trans (ih (min v0 y) (min v0 y) (List.mem_cons_self _ _))
          (min_le_left _ _)
      · rcases List.mem_cons.1 hx1 with hy | ht
        · rw [hy]
          exact le_trans (ih (min v0 y) (min v0 y) (List.mem_cons_self _ _))
            (min_le_right _ _)
        · exact ih (min v0 y) x (List.mem_cons.2 (Or.inr ht))

theorem foldl_min_mem {α : Type} [LinearOrder α] :
    ∀ (l : List α) (v0 : α), l.foldl min v0 ∈ v0 :: l := by
  intro l
  induction l with
  | nil => intro v0; exact List.mem_cons_self _ _
  | cons y t ih =>
      intro v0
      show t.foldl min (min v0 y) ∈ _
      have h := ih (min v0 y)
      rcases List.mem_cons.1 h with h0 | ht
      · rw [h0]
        rcases min_cases v0 y with ⟨hm, _⟩ | ⟨hm, _⟩
        · rw [hm]; exact List.mem_cons_self _ _
        · rw [hm]; exact List.mem_cons.2 (Or.inr (List.mem_cons_self _ _))
      · exact List.mem_cons.2 (Or.inr (List.mem_cons.2 (Or.inr ht)))

theorem foldl_min_perm {α : Type} [LinearOrder α] {l l' : List α}
    (hp : l.Perm l') : ∀ (v0 : α), l.foldl min v0 = l'.foldl min v0 := by
  induction hp with
  | nil => intro v0; rfl
  | cons x _ ih =>
      intro v0
      show List.foldl min (min v0 x) _ = List.foldl min (min v0 x) _
      exact ih (min v0 x)
  | swap x y t =>
      intro v0
      show t.foldl min (min (min v0 y) x) = t.foldl min (min (min v0 x) y)
      rw [min_right_comm]
  | trans _ _ ih1 ih2 =>
      intro v0
      rw [ih1 v0, ih2 v0]

/-! ### remDuplicates -/

theorem firstWith_succ (keys : Nat → Nat) (k t : Nat) :
    firstWith keys k (t+1)
      = match firstWith keys k t with
        | some i => some i
        | none => if keys t = k then some t else none := rfl

theorem firstWith_none_char (keys : Nat → Nat) (k : Nat) :
    ∀ t, firstWith keys k t = none → ∀ j, j < t → keys j ≠ k := by
  intro t
  induction t with
  | zero => intro _ j hj; omega
  | succ t ih =>
      intro h j hj
      rw [firstWith_succ] at h
      rcases h' : firstWith keys k t with _ | i
      · rw [h'] at h
        simp only [] at h
        by_cases hkt : keys t = k
        · rw [if_pos hkt] at h
          exact absurd h (by simp)
        · rcases Nat.lt_or_ge j t with hjt | hjt
          · exact ih h' j hjt
          · have hjeq : j = t := by omega
            subst hjeq
            exact hkt
      · rw [h'] at h
        exact absurd h (by simp)

theorem firstWith_some_char (keys : Nat → Nat) (k : Nat) :
    ∀ t j, firstWith keys k t = some j →
      j < t ∧ keys j = k ∧ ∀ j', j' < j → keys j' ≠ k := by
  intro t
  induction t with
  | zero => intro j h; simp [firstWith] at h
  | succ t ih =>
      intro j h
      rw [firstWith_succ] at h
      rcases h' : firstWith keys k t with _ | i
      · rw [h'] at h
        simp only [] at h
        by_cases hkt : keys t = k
        · rw [if_pos hkt] at h
          simp only [Option.some.injEq] at h
          subst h
          exact ⟨by omega, hkt, firstWith_none_char keys k t h'⟩
        · rw [if_neg hkt] at h
          exact absurd h (by simp)
      · rw [h'] at h
        simp only [Option.some.injEq] at h
        subst h
        obtain ⟨h1, h2, h3⟩ := ih i h'
        exact ⟨by omega, h2, h3⟩

theorem firstWith_some_of_mem (keys : Nat → Nat) (k : Nat) {i t : Nat}
    (hi : i < t) (hk : keys i = k) : ∃ j, firstWith keys k t = some j ∧ j ≤ i := by
  rcases h' : firstWith keys k t with _ | j
  · exact absurd hk (firstWith_none_char keys k t h' i hi)
  · refine ⟨j, rfl, ?_⟩
    obtain ⟨_, _, h3⟩ := firstWith_some_char keys k t j h'
    by_contra hcon
    exact h3 i (by omega) hk

theorem firstWith_step_ne (keys : Nat → Nat) (k t : Nat) (h : keys t ≠ k) :
    firstWith keys k (t+1) = firstWith keys k t := by
  rw [firstWith_succ]
  rcases h' : firstWith keys k t with _ | i
  · simp only [if_neg h]
  · rfl

theorem firstWith_step_new (keys : Nat → Nat) (k t : Nat) (h : keys t = k)
    (h' : firstWith keys k t = none) : firstWith keys k (t+1) = some t := by
  rw [firstWith_succ, h']
  simp only [if_pos h]

theorem firstWith_step_some (keys : Nat → Nat) {k t j : Nat}
    (h' : firstWith keys k t = some j) : firstWith keys k (t+1) = some j := by
  rw [firstWith_succ, h']

/-- Phase 1 of `remDuplicates` records, in each key's flag slot, the first
entry index carrying that key (sequentially, the first CAS wins). -/
theorem remDupPhase1_char (keys : Nat → Nat) {m n : Nat}
    (hk : ∀ i, i < m → keys i < n ∨ keys i = UINT_E_MAX)
    (hn : n ≤ UINT_E_MAX) (hm : m ≤ UINT_E_MAX) :
    ∀ (c i0 : Nat), i0 + c ≤ m → ∀ (flags : Nat → Nat),
      (∀ k, k < n → flags k = (firstWith keys k i0).getD UINT_E_MAX) →
      ∀ k, k < n → remDupPhase1 keys i0 c flags k
        = (firstWith keys k (i0 + c)).getD UINT_E_MAX := by
  intro c
  induction c with
  | zero =>
      intro i0 _ flags hinv k hkn
      rw [Nat.add_zero]
      exact hinv k hkn
  | succ c ih =>
      intro i0 hc flags hinv k hkn
      have hstep : remDupPhase1 keys i0 (c+1) flags
          = if keys i0 ≠ UINT_E_MAX ∧ flags (keys i0) = UINT_E_MAX then
              remDupPhase1 keys (i0+1) c (Function.update flags (keys i0) i0)
            else remDupPhase1 keys (i0+1) c flags := rfl
      rw [hstep]
      rw [show i0 + (c+1) = (i0 + 1) + c from by omega]
      by_cases hmax : keys i0 = UINT_E_MAX
      · rw [if_neg (by simp [hmax])]
        apply ih (i0+1) (by omega) flags _ k hkn
        intro k2 hk2
        rw [hinv k2 hk2, firstWith_step_ne keys k2 i0 (by omega)]
      · have hk0 : keys i0 < n := (hk i0 (by omega)).resolve_right hmax
        by_cases hfl0 : flags (keys i0) = UINT_E_MAX
        · have hnone : firstWith keys (keys i0) i0 = none := by
            rcases h' : firstWith keys (keys i0) i0 with _ | j
            · rfl
            · obtain ⟨hj1, _, _⟩ := firstWith_some_char keys (keys i0) i0 j h'
              have := hinv (keys i0) hk0
              rw [h'] at this
              simp only [Option.getD_some] at this
              omega
          rw [if_pos ⟨hmax, hfl0⟩]
          apply ih (i0+1) (by omega) _ _ k hkn
          intro k2 hk2
          by_cases hkk : k2 = keys i0
          · subst hkk
            rw [Function.update_same]
            rw [firstWith_step_new keys (keys i0) i0 rfl hnone]
            rfl
          · rw [Function.update_noteq hkk]
            rw [hinv k2 hk2, firstWith_step_ne keys k2 i0 (fun hcon => hkk hcon.symm)]
        · rw [if_neg (by simp [hfl0])]
          apply ih (i0+1) (by omega) flags _ k hkn
          intro k2 hk2
          rw [hinv k2 hk2]
          by_cases hkk : k2 = keys i0
          · subst hkk
            rcases h' : firstWith keys (keys i0) i0 with _ | j
            · have hcontra := hinv (keys i0) hk2
              rw [h'] at hcontra
              simp only [Option.getD_none] at hcontra
              exact absurd hcontra hfl0
            · rw [firstWith_step_some keys h']
          · rw [firstWith_step_ne keys k2 i0 (fun hcon => hkk hcon.symm)]

/-- Phase 2 of `remDuplicates`: winners keep their key and reset their flag
slot; losers get their key overwritten with the sentinel.  `keys0` is the
entry-key state at the start of phase 2 (phase 2 only mutates entry `i` at
iteration `i`, so unprocessed entries still carry their original keys). -/
theorem remDupPhase2_char (keys0 : Nat → Nat) {m n : Nat}
    (hk : ∀ i, i < m → keys0 i < n ∨ keys0 i = UINT_E_MAX)
    (hn : n ≤ UINT_E_MAX) (hm : m ≤ UINT_E_MAX) :
    ∀ (c i0 : Nat), i0 + c ≤ m → ∀ (keys flags : Nat → Nat),
      (∀ i, i0 ≤ i → keys i = keys0 i) →
      (∀ i, i < i0 → keys i
        = if ∀ j', j' < i → keys0 j' ≠ keys0 i then keys0 i else UINT_E_MAX) →
      (∀ k, k < n → flags k = (match firstWith keys0 k m with
          | none => UINT_E_MAX
          | some j => if j < i0 then UINT_E_MAX else j)) →
      (∀ i, i < i0 + c → (remDupPhase2 i0 c keys flags).1 i
        = if ∀ j', j' < i → keys0 j' ≠ keys0 i then keys0 i else UINT_E_MAX) ∧
      (∀ i, i0 + c ≤ i → (remDupPhase2 i0 c keys flags).1 i = keys0 i) ∧
      (∀ k, k < n → (remDupPhase2 i0 c keys flags).2 k
        = (match firstWith keys0 k m with
           | none => UINT_E_MAX
           | some j => if j < i0 + c then UINT_E_MAX else j)) := by
  intro c
  induction c with
  | zero =>
      intro i0 _ keys flags hkeep hdone hfl
      refine ⟨?_, ?_, ?_⟩
      · intro i hi
        exact hdone i (by omega)
      · intro i hi
        exact hkeep i (by omega)
      · intro k hkn
        rw [Nat.add_zero]
        exact hfl k hkn
  | succ c ih =>
      intro i0 hc keys flags hkeep hdone hfl
      have hki0 : keys i0 = keys0 i0 := hkeep i0 (le_refl _)
      have hstep : remDupPhase2 i0 (c+1) keys flags
          = if keys i0 ≠ UINT_E_MAX then
              if flags (keys i0) = i0 then
                remDupPhase2 (i0+1) c keys (Function.update flags (keys i0) UINT_E_MAX)
              else
                remDupPhase2 (i0+1) c (Function.update keys i0 UINT_E_MAX) flags
            else remDupPhase2 (i0+1) c keys flags := rfl
      rw [show i0 + (c+1) = (i0+1) + c from by omega]
      by_cases hmax : keys0 i0 = UINT_E_MAX
      · -- invalid entry: skipped
        rw [hstep, if_neg (by rw [hki0, hmax]; simp)]
        apply ih (i0+1) (by omega) keys flags (fun i hi => hkeep i (by omega)) _ _
        · intro i hi
          rcases Nat.lt_or_ge i i0 with h | h
          · exact hdone i h
          · have hi0 : i = i0 := by omega
            subst hi0
            rw [hki0, hmax]
            split <;> rfl
        · intro k hkn
          rw [hfl k hkn]
          rcases h' : firstWith keys0 k m with _ | j
          · rfl
          · obtain ⟨_, hj2, _⟩ := firstWith_some_char keys0 k m j h'
            have hji0 : j ≠ i0 := by
              intro hcon
              subst hcon
              omega
            simp only []
            rw [show (if j < i0 then UINT_E_MAX else j)
                = (if j < i0 + 1 then UINT_E_MAX else j) from by
              rcases Nat.lt_or_ge j i0 with h1 | h1
              · rw [if_pos h1, if_pos (by omega)]
              · rw [if_neg (by omega), if_neg (by omega)]]
      · -- valid key
        have hk0 : keys0 i0 < n := (hk i0 (by omega)).resolve_right hmax
        obtain ⟨j0, hj0, hj0le⟩ :=
          firstWith_some_of_mem keys0 (keys0 i0) (show i0 < m from by omega) rfl
        have hflk0 : flags (keys0 i0) = if j0 < i0 then UINT_E_MAX else j0 := by
          rw [hfl (keys0 i0) hk0, hj0]
        by_cases hwin : j0 = i0
        · -- i0 is the first occurrence: winner
          subst hwin
          have hfirst : ∀ j', j' < j0 → keys0 j' ≠ keys0 j0 :=
            (firstWith_some_char keys0 (keys0 j0) m j0 hj0).2.2
          rw [hstep, if_pos (by rw [hki0]; exact hmax),
            if_pos (by rw [hki0, hflk0]; simp)]
          apply ih (j0+1) (by omega) keys _ (fun i hi => hkeep i (by omega)) _ _
          · intro i hi
            rcases Nat.lt_or_ge i j0 with h | h
            · exact hdone i h
            · have hi0 : i = j0 := by omega
              subst hi0
              rw [hki0, if_pos hfirst]
          · intro k hkn
            by_cases hkk : k = keys0 j0
            · subst hkk
              rw [hki0, Function.update_same, hj0]
              simp only []
              rw [if_pos (by omega)]
            · rw [hki0, Function.update_noteq hkk, hfl k hkn]
              rcases h' : firstWith keys0 k m with _ | j
              · rfl
              · obtain ⟨_, hj2, _⟩ := firstWith_some_char keys0 k m j h'
                have hji0 : j ≠ j0 := by
                  intro hcon
                  subst hcon
                  exact hkk hj2.symm
                simp only []
                rw [show (if j < j0 then UINT_E_MAX else j)
                    = (if j < j0 + 1 then UINT_E_MAX else j) from by
                  rcases Nat.lt_or_ge j j0 with h1 | h1
                  · rw [if_pos h1, if_pos (by omega)]
                  · rw [if_neg (by omega), if_neg (by omega)]]
        · -- an earlier entry carries the same key: loser
          have hj0lt : j0 < i0 := by omega
          rw [hstep, if_pos (by rw [hki0]; exact hmax),
            if_neg (by
              rw [hki0, hflk0, if_pos hj0lt]
              intro hcon
              omega)]
          apply ih (i0+1) (by omega) _ flags _ _ _
          · intro i hi
            rw [Function.update_noteq (by omega)]
            exact hkeep i (by omega)
          · intro i hi
            rcases Nat.lt_or_ge i i0 with h | h
            · rw [Function.update_noteq (by omega)]
              exact hdone i h
            · have hi0 : i = i0 := by omega
              rw [hi0, Function.update_same]
              rw [if_neg (by
                intro hall
                exact hall j0 hj0lt (firstWith_some_char keys0 (keys0 i0) m j0 hj0).2.1)]
          · intro k hkn
            rw [hfl k hkn]
            rcases h' : firstWith keys0 k m with _ | j
            · rfl
            · obtain ⟨_, hj2, _⟩ := firstWith_some_char keys0 k m j h'
              by_cases hkk : k = keys0 i0
              · subst hkk
                rw [h'] at hj0
                simp only [Option.some.injEq] at hj0
                simp only []
                rw [if_pos (by omega), if_pos (by omega)]
              · have hji0 : j ≠ i0 := by
                  intro hcon
                  subst hcon
                  exact hkk hj2.symm
                simp only []
                rw [show (if j < i0 then UINT_E_MAX else j)
                    = (if j < i0 + 1 then UINT_E_MAX else j) from by
                  rcases Nat.lt_or_ge j i0 with h1 | h1
                  · rw [if_pos h1, if_pos (by omega)]
                  · rw [if_neg (by omega), if_neg (by omega)]]

/-- Combined characterisation of `remDuplicates`: first occurrences keep
their keys, later occurrences are overwritten with the sentinel, unprocessed
entries (`i ≥ m`) are untouched, and every flag slot is the sentinel again. -/
theorem remDuplicates_char (keys flags : Nat → Nat) (m n : Nat)
    (hk : ∀ i, i < m → keys i < n ∨ keys i = UINT_E_MAX)
    (hfl : ∀ k, k < n → flags k = UINT_E_MAX)
    (hn : n ≤ UINT_E_MAX) (hm : m ≤ UINT_E_MAX) :
    (∀ i, i < m → (remDuplicates keys flags m n).1 i
      = if ∀ j', j' < i → keys j' ≠ keys i then keys i else UINT_E_MAX) ∧
    (∀ i, m ≤ i → (remDuplicates keys flags m n).1 i = keys i) ∧
    (∀ k, k < n → (remDuplicates keys flags m n).2 k = UINT_E_MAX) := by
  have hphase1 : ∀ k, k < n → remDupPhase1 keys 0 m flags k
      = (firstWith keys k m).getD UINT_E_MAX := by
    intro k hkn
    have h0 : (0:Nat) + m = m := by omega
    have := remDupPhase1_char keys hk hn hm m 0 (by omega) flags
      (fun k2 hk2 => by rw [hfl k2 hk2]; rfl) k hkn
    rw [h0] at this
    exact this
  unfold remDuplicates
  obtain ⟨h1, h2, h3⟩ := remDupPhase2_char keys hk hn hm m 0 (by omega)
    keys (remDupPhase1 keys 0 m flags)
    (fun i _ => rfl)
    (fun i hi => by omega)
    (fun k hkn => by
      rw [hphase1 k hkn]
      rcases h' : firstWith keys k m with _ | j
      · rfl
      · simp only [Option.getD_some]
        rw [if_neg (by omega)])
  refine ⟨?_, ?_, ?_⟩
  · intro i hi
    exact h1 i (by omega)
  · intro i hi
    exact h2 i (by omega)
  · intro k hkn
    rw [h3 k hkn]
    rcases h' : firstWith keys k m with _ | j
    · rfl
    · obtain ⟨hj1, _, _⟩ := firstWith_some_char keys k m j h'
      simp only []
      rw [if_pos (by omega)]

/-! ### Reversing the getter -/

/-- Scanning the getter `t ↦ In (p - t)` forward consumes `In` downward from
`p - i`. -/
theorem foldGo_rev_getter {α : Type} (f : α → α → α) (In : Nat → α) (p : Nat) :
    ∀ (c i : Nat), i + c ≤ p + 1 → ∀ (z : α),
      foldGo f (fun t => In (p - t)) z i c = foldGoRev f In z (p - i + 1) c := by
  intro c
  induction c with
  | zero => intro i _ z; rfl
  | succ c ih =>
      intro i hc z
      show foldGo f (fun t => In (p - t)) (f z (In (p - i))) (i+1) c
        = foldGoRev f In (f z (In (p - i + 1 - 1))) (p - i + 1 - 1) c
      rw [show p - i + 1 - 1 = p - i from by omega]
      by_cases hip : i < p
      · rw [ih (i+1) (by omega)]
        rw [show p - (i+1) + 1 = p - i from by omega]
      · have hc0 : c = 0 := by omega
        subst hc0
        rfl

/-- The values a scan writes into `[s, e)` and the total it returns do not
depend on the destination buffer's prior contents. -/
theorem scan_out_indep {α : Type} (bsize : Nat) (hb : 2 ≤ bsize) (f : α → α → α)
    (Out1 Out2 g : Nat → α) (s e : Nat) (z : α) (incl back : Bool) :
    ((scan bsize Out1 s e f g z incl back).2
      = (scan bsize Out2 s e f g z incl back).2) ∧
    (∀ j, s ≤ j → j < e → (scan bsize Out1 s e f g z incl back).1 j
      = (scan bsize Out2 s e f g z incl back).1 j) := by
  unfold scan
  by_cases hg : scanGoesSerial bsize (e - s) = true
  · rw [if_pos hg, if_pos hg]
    constructor
    · rw [scanSerial_snd, scanSerial_snd]
    · intro j h1 h2
      rw [scanSerial_fst_in _ _ _ _ _ _ _ _ _ h1 h2,
        scanSerial_fst_in _ _ _ _ _ _ _ _ _ h1 h2]
  · rw [if_neg hg, if_neg hg]
    simp only []
    constructor
    · trivial
    · intro j h1 h2
      have hn1 : 1 ≤ e - s := by omega
      have hemax := @e_le_blocks_end bsize s e (by omega)
      have e0 : (0:Nat) * bsize = 0 := by ring
      have e1 : (0 + nblocks (e - s) bsize) * bsize
          = nblocks (e - s) bsize * bsize := by ring
      rw [blockedScan_char f g _ bsize s e (by omega) incl back _ 0 Out1 j,
        blockedScan_char f g _ bsize s e (by omega) incl back _ 0 Out2 j]
      rw [if_pos (by omega), if_pos (by omega)]

/-! ### The reversed blocked scan is not the mirrored forward scan:
evaluation of a three-block instance of `cexF`/`cexIn`. -/

theorem cexF_assoc : ∀ a b c, cexF (cexF a b) c = cexF a (cexF b c) := by
  intro a b c
  by_cases ha : a = 0 <;> by_cases hb : b = 0 <;> simp [cexF, ha, hb]

theorem cexF_stay {a : Nat} (h : a ≠ 0) (b : Nat) : cexF a b = a := by
  simp [cexF, h]

theorem reduceGo_cex_stay (g : Nat → Nat) :
    ∀ (k i : Nat) {r : Nat}, r ≠ 0 → reduceGo cexF g i k r = r := by
  intro k
  induction k with
  | zero => intro i r _; rfl
  | succ k ih =>
      intro i r hr
      show reduceGo cexF g (i+1) k (cexF r (g i)) = r
      rw [cexF_stay hr]
      exact ih (i+1) hr

theorem reduceGo_cex_zeros (g : Nat → Nat) :
    ∀ (k i : Nat), (∀ j, i ≤ j → j < i + k → g j = 0) → ∀ (r : Nat),
      reduceGo cexF g i k r = r := by
  intro k
  induction k with
  | zero => intro i _ r; rfl
  | succ k ih =>
      intro i hz r
      show reduceGo cexF g (i+1) k (cexF r (g i)) = r
      rw [hz i (le_refl _) (by omega)]
      rw [show cexF r 0 = r from by by_cases hr : r = 0 <;> simp [cexF, hr]]
      exact ih (i+1) (fun j h1 h2 => hz j (by omega) (by omega)) r

theorem foldGoRev_cex_stay (g : Nat → Nat) :
    ∀ (k i : Nat) {r : Nat}, r ≠ 0 → foldGoRev cexF g r i k = r := by
  intro k
  induction k with
  | zero => intro i r _; rfl
  | succ k ih =>
      intro i r hr
      show foldGoRev cexF g (cexF r (g (i-1))) (i-1) k = r
      rw [cexF_stay hr]
      exact ih (i-1) hr

theorem cex_S0 : reduceSerial (0 + 0 * 1024) (min (0 + 0 * 1024 + 1024) 2049) cexF cexIn
    = 0 := by
  rw [show (0 + 0 * 1024 : Nat) = 0 from by norm_num,
    show min (0 + 0 * 1024 + 1024) 2049 = 1024 from by norm_num]
  show reduceGo cexF cexIn (0+1) (1024 - (0+1)) (cexIn 0) = 0
  rw [show cexIn 0 = 0 from by decide]
  rw [show (1024 - (0+1) : Nat) = 1023 from by norm_num]
  apply reduceGo_cex_zeros
  intro j h1 h2
  unfold cexIn
  rw [if_neg (by omega), if_neg (by omega)]

theorem cex_S1 : reduceSerial (0 + 1 * 1024) (min (0 + 1 * 1024 + 1024) 2049) cexF cexIn
    = 7 := by
  rw [show (0 + 1 * 1024 : Nat) = 1024 from by norm_num,
    show min (0 + 1 * 1024 + 1024) 2049 = 2048 from by norm_num]
  show reduceGo cexF cexIn (1024+1) (2048 - (1024+1)) (cexIn 1024) = 7
  rw [show cexIn 1024 = 7 from by decide]
  exact reduceGo_cex_stay cexIn _ _ (by omega)

theorem cex_S2 : reduceSerial (0 + 2 * 1024) (min (0 + 2 * 1024 + 1024) 2049) cexF cexIn
    = 0 := by
  rw [show (0 + 2 * 1024 : Nat) = 2048 from by norm_num,
    show min (0 + 2 * 1024 + 1024) 2049 = 2049 from by norm_num]
  show reduceGo cexF cexIn (2048+1) (2049 - (2048+1)) (cexIn 2048) = 0
  rw [show (2049 - (2048+1) : Nat) = 0 from by norm_num]
  show cexIn 2048 = 0
  decide

theorem scanIPGoB_three {α : Type} (f : α → α → α) (z : α) (A : Nat → α) :
    ((scanIPGoB f false 3 3 z A).2 = f (f (f z (A 2)) (A 1)) (A 0)) ∧
    ((scanIPGoB f false 3 3 z A).1 0 = f (f z (A 2)) (A 1)) := ⟨rfl, rfl⟩

theorem scanIPGoF_three {α : Type} (f : α → α → α) (z : α) (A : Nat → α) :
    ((scanIPGoF f false 0 3 z A).2 = f (f (f z (A 0)) (A 1)) (A 2)) ∧
    ((scanIPGoF f false 0 3 z A).1 2 = f (f z (A 0)) (A 1)) := ⟨rfl, rfl⟩

theorem cex_P_back :
    ((scanIP 1024
        (fun i => reduceSerial (0 + i * 1024) (min (0 + i * 1024 + 1024) 2049) cexF cexIn)
        0 3 cexF 0 false true).2 = 7) ∧
    ((scanIP 1024
        (fun i => reduceSerial (0 + i * 1024) (min (0 + i * 1024 + 1024) 2049) cexF cexIn)
        0 3 cexF 0 false true).1 0 = 7) := by
  rw [scanIP_unfold 1024 (by norm_num)
    (fun i => reduceSerial (0 + i * 1024) (min (0 + i * 1024 + 1024) 2049) cexF cexIn)
    0 3 cexF 0 false true,
    if_pos (show scanGoesSerial 1024 (3 - 0) = true from by decide)]
  unfold scanSerialIP
  rw [if_pos (show (true : Bool) = true from rfl), show (3 : Nat) - 0 = 3 from rfl]
  constructor
  · rw [(scanIPGoB_three cexF 0 _).1]
    rw [cex_S0, cex_S1, cex_S2]
    decide
  · rw [(scanIPGoB_three cexF 0 _).2]
    rw [cex_S1, cex_S2]
    decide

theorem cex_back_out :
    ((scanBack 1024 cexIn (fun _ => (0:Nat)) 2049 cexF 0).2 = 7) ∧
    ((scanBack 1024 cexIn (fun _ => (0:Nat)) 2049 cexF 0).1 0 = 7) := by
  unfold scanBack scan
  rw [if_neg (show ¬ scanGoesSerial 1024 (2049 - 0) = true from by decide)]
  simp only []
  rw [show nblocks (2049 - 0) 1024 = 3 from by decide]
  constructor
  · exact cex_P_back.1
  · show (blockedFor (fun i B =>
        (scanSerial B (0 + i * 1024) (min (0 + i * 1024 + 1024) 2049) cexF cexIn
          ((scanIP 1024
            (fun i => reduceSerial (0 + i * 1024) (min (0 + i * 1024 + 1024) 2049) cexF cexIn)
            0 3 cexF 0 false true).1 i) false true).1) 0 3 (fun _ => (0:Nat))) 0 = 7
    rw [blockedScan_char cexF cexIn
      ((scanIP 1024
        (fun i => reduceSerial (0 + i * 1024) (min (0 + i * 1024 + 1024) 2049) cexF cexIn)
        0 3 cexF 0 false true).1) 1024 0 2049 (by norm_num) false true 3 0 (fun _ => (0:Nat)) 0]
    rw [if_pos (show 0 + 0 * 1024 ≤ 0 ∧ 0 < min (0 + (0 + 3) * 1024) 2049 from by norm_num)]
    unfold blockWriteVal
    rw [show ((0:Nat) - 0) / 1024 = 0 from by norm_num]
    unfold serialVal
    rw [if_pos (show (true : Bool) = true from rfl),
      if_neg (show ¬ (false : Bool) = true from by decide)]
    rw [cex_P_back.2]
    exact foldGoRev_cex_stay cexIn _ _ (by omega)

theorem reduceGo_step {α : Type} (f : α → α → α) (g : Nat → α) (j k : Nat) (r : α) :
    reduceGo f g j (k+1) r = reduceGo f g (j+1) k (f r (g j)) := rfl

theorem cex_T0 : reduceSerial (0 + 0 * 1024) (min (0 + 0 * 1024 + 1024) 2049) cexF
    (fun t => cexIn (2048 - t)) = 9 := by
  rw [show (0 + 0 * 1024 : Nat) = 0 from by norm_num,
    show min (0 + 0 * 1024 + 1024) 2049 = 1024 from by norm_num]
  show reduceGo cexF (fun t => cexIn (2048 - t)) (0+1) (1024 - (0+1))
    ((fun t => cexIn (2048 - t)) 0) = 9
  rw [show (fun t => cexIn (2048 - t)) 0 = 0 from by decide,
    show (1024 - (0+1) : Nat) = 1022 + 1 from by norm_num]
  rw [reduceGo_step]
  rw [show cexF 0 ((fun t => cexIn (2048 - t)) (0+1)) = 9 from by decide]
  exact reduceGo_cex_stay _ _ _ (by omega)

theorem cex_T1 : reduceSerial (0 + 1 * 1024) (min (0 + 1 * 1024 + 1024) 2049) cexF
    (fun t => cexIn (2048 - t)) = 7 := by
  rw [show (0 + 1 * 1024 : Nat) = 1024 from by norm_num,
    show min (0 + 1 * 1024 + 1024) 2049 = 2048 from by norm_num]
  show reduceGo cexF (fun t => cexIn (2048 - t)) (1024+1) (2048 - (1024+1))
    ((fun t => cexIn (2048 - t)) 1024) = 7
  rw [show (fun t => cexIn (2048 - t)) 1024 = 7 from by decide]
  exact reduceGo_cex_stay _ _ _ (by omega)

theorem cex_T2 : reduceSerial (0 + 2 * 1024) (min (0 + 2 * 1024 + 1024) 2049) cexF
    (fun t => cexIn (2048 - t)) = 0 := by
  rw [show (0 + 2 * 1024 : Nat) = 2048 from by norm_num,
    show min (0 + 2 * 1024 + 1024) 2049 = 2049 from by norm_num]
  show reduceGo cexF (fun t => cexIn (2048 - t)) (2048+1) (2049 - (2048+1))
    ((fun t => cexIn (2048 - t)) 2048) = 0
  rw [show (2049 - (2048+1) : Nat) = 0 from by norm_num]
  show (fun t => cexIn (2048 - t)) 2048 = 0
  decide

theorem cex_P_fwd :
    ((scanIP 1024
        (fun i => reduceSerial (0 + i * 1024) (min (0 + i * 1024 + 1024) 2049) cexF
          (fun t => cexIn (2048 - t)))
        0 3 cexF 0 false false).2 = 9) ∧
    ((scanIP 1024
        (fun i => reduceSerial (0 + i * 1024) (min (0 + i * 1024 + 1024) 2049) cexF
          (fun t => cexIn (2048 - t)))
        0 3 cexF 0 false false).1 2 = 9) := by
  rw [scanIP_unfold 1024 (by norm_num)
    (fun i => reduceSerial (0 + i * 1024) (min (0 + i * 1024 + 1024) 2049) cexF
      (fun t => cexIn (2048 - t)))
    0 3 cexF 0 false false,
    if_pos (show scanGoesSerial 1024 (3 - 0) = true from by decide)]
  unfold scanSerialIP
  rw [if_neg (show ¬ (false : Bool) = true from by decide), show (3 : Nat) - 0 = 3 from rfl]
  constructor
  · rw [(scanIPGoF_three cexF 0 _).1]
    rw [cex_T0, cex_T1, cex_T2]
    decide
  · rw [(scanIPGoF_three cexF 0 _).2]
    rw [cex_T0, cex_T1]
    decide

theorem cex_fwd_out :
    ((scanArr 1024 (fun t => cexIn (2048 - t)) (fun _ => (0:Nat)) 2049 cexF 0).2 = 9) ∧
    ((scanArr 1024 (fun t => cexIn (2048 - t)) (fun _ => (0:Nat)) 2049 cexF 0).1 2048 = 9) := by
  unfold scanArr scan
  rw [if_neg (show ¬ scanGoesSerial 1024 (2049 - 0) = true from by decide)]
  simp only []
  rw [show nblocks (2049 - 0) 1024 = 3 from by decide]
  constructor
  · exact cex_P_fwd.1
  · show (blockedFor (fun i B =>
        (scanSerial B (0 + i * 1024) (min (0 + i * 1024 + 1024) 2049) cexF
          (fun t => cexIn (2048 - t))
          ((scanIP 1024
            (fun i => reduceSerial (0 + i * 1024) (min (0 + i * 1024 + 1024) 2049) cexF
              (fun t => cexIn (2048 - t)))
            0 3 cexF 0 false false).1 i) false false).1) 0 3 (fun _ => (0:Nat))) 2048 = 9
    rw [blockedScan_char cexF (fun t => cexIn (2048 - t))
      ((scanIP 1024
        (fun i => reduceSerial (0 + i * 1024) (min (0 + i * 1024 + 1024) 2049) cexF
          (fun t => cexIn (2048 - t)))
        0 3 cexF 0 false false).1) 1024 0 2049 (by norm_num) false false 3 0
        (fun _ => (0:Nat)) 2048]
    rw [if_pos (show 0 + 0 * 1024 ≤ 2048 ∧ 2048 < min (0 + (0 + 3) * 1024) 2049 from
      by norm_num)]
    unfold blockWriteVal
    rw [show ((2048:Nat) - 0) / 1024 = 2 from by norm_num]
    unfold serialVal
    rw [if_neg (show ¬ (false : Bool) = true from by decide),
      if_neg (show ¬ (false : Bool) = true from by decide)]
    rw [show (2048 - (0 + 2 * 1024) : Nat) = 0 from by norm_num]
    exact cex_P_fwd.2

/-! ### Delegation to the serial routines (the branch guards) -/

theorem reduce_delegates {α : Type} (bsize : Nat) (s e : Nat) (f : α → α → α)
    (g : Nat → α) (h : reduceGoesSerial bsize (e - s) = true) :
    reduce bsize s e f g = reduceSerial s e f g := by
  unfold reduce
  rcases he : e - s with _ | k
  · rfl
  · simp only [reduceFuel]
    rw [if_pos h]

theorem scan_delegates {α : Type} (bsize : Nat) (Out : Nat → α) (s e : Nat)
    (f : α → α → α) (g : Nat → α) (zero : α) (incl back : Bool)
    (h : scanGoesSerial bsize (e - s) = true) :
    scan bsize Out s e f g zero incl back = scanSerial Out s e f g zero incl back := by
  unfold scan
  rw [if_pos h]

theorem pack_delegates {α : Type} (bsize : Nat) (Out : Option (Nat → α)) (dflt : α)
    (Fl : Nat → Bool) (s e : Nat) (ff : Nat → α) (aligned : Bool)
    (h : packGoesSerial bsize (e - s) = true) :
    pack bsize Out dflt Fl s e ff aligned = packSerial Out dflt Fl s e ff := by
  unfold pack
  rw [if_pos h]

theorem reduceGoesSerial_iff (bsize n : Nat) :
    reduceGoesSerial bsize n = true ↔ nblocks n bsize ≤ 1 := by
  simp [reduceGoesSerial]

theorem scanGoesSerial_iff (bsize n : Nat) :
    scanGoesSerial bsize n = true ↔ nblocks n bsize ≤ 2 := by
  simp [scanGoesSerial]

theorem packGoesSerial_iff (bsize n : Nat) :
    packGoesSerial bsize n = true ↔ nblocks n (2 * bsize) ≤ 1 := by
  simp [packGoesSerial]

/-! ## The claims -/

/-- C1: for every array `A` of length `n ≥ 1`, associative `f` and zero `z`,
the exclusive forward scan writes `Out[i] = fold(f, z, A[0..i))` for every
`i < n`, the inclusive forward scan writes `Out[i] = fold(f, z, A[0..i])`,
and both return `fold(f, z, A[0..n))` — whatever the block size, hence
however many blocks the implementation used. -/
theorem C1_forward_scan_folds {α : Type} (bsize : Nat) (hb : 2 ≤ bsize)
    (f : α → α → α) (hf : ∀ a b c, f (f a b) c = f a (f b c))
    (A Out : Nat → α) (n : Nat) (hn : 1 ≤ n) (z : α) :
    ((scanArr bsize A Out n f z).2 = foldRange f z A 0 n) ∧
    (∀ i, i < n → (scanArr bsize A Out n f z).1 i = foldRange f z A 0 i) ∧
    ((scanI bsize A Out n f z).2 = foldRange f z A 0 n) ∧
    (∀ i, i < n → (scanI bsize A Out n f z).1 i = foldRange f z A 0 (i+1)) := by
  have h1 := scan_fwd_char bsize hb f hf (n - 0) 0 n rfl Out A z false
  have h2 := scan_fwd_char bsize hb f hf (n - 0) 0 n rfl Out A z true
  refine ⟨h1.1, ?_, h2.1, ?_⟩
  · intro i hi
    show (scan bsize Out 0 n f A z false false).1 i = foldRange f z A 0 i
    rw [h1.2 i, if_pos ⟨Nat.zero_le _, hi⟩]
    simp only [Bool.false_eq_true, if_false]
  · intro i hi
    show (scan bsize Out 0 n f A z true false).1 i = foldRange f z A 0 (i+1)
    rw [h2.2 i, if_pos ⟨Nat.zero_le _, hi⟩]
    simp only [if_true]

/-- Closed instance of C1 at `bsize = 2`, `n = 3`, `f = (+)`. -/
theorem C1_forward_scan_folds_witness :
    ((scanArr 2 (fun i => i) (fun _ => (0:Nat)) 3 (fun a b => a + b) 0).2
      = foldRange (fun a b => a + b) 0 (fun i => i) 0 3) ∧
    ((scanArr 2 (fun i => i) (fun _ => (0:Nat)) 3 (fun a b => a + b) 0).1 2
      = foldRange (fun a b => a + b) 0 (fun i => i) 0 2) ∧
    ((scanI 2 (fun i => i) (fun _ => (0:Nat)) 3 (fun a b => a + b) 0).2
      = foldRange (fun a b => a + b) 0 (fun i => i) 0 3) ∧
    ((scanI 2 (fun i => i) (fun _ => (0:Nat)) 3 (fun a b => a + b) 0).1 2
      = foldRange (fun a b => a + b) 0 (fun i => i) 0 3) := by
  have h := C1_forward_scan_folds 2 (by decide) (fun a b => a + b)
    (fun a b c => Nat.add_assoc a b c) (fun i => i) (fun _ => 0) 3 (by decide) 0
  exact ⟨h.1, h.2.1 2 (by decide), h.2.2.1, h.2.2.2 2 (by decide)⟩

/-- C2: for every non-empty array and associative combiner, the recursive
block-decomposed `reduce` returns exactly `reduceSerial` over the same
range: the sequential left-to-right fold seeded by the first element. -/
theorem C2_reduce_eq_serial {α : Type} (bsize : Nat) (hb : 2 ≤ bsize)
    (f : α → α → α) (hf : ∀ a b c, f (f a b) c = f a (f b c))
    (A : Nat → α) (n : Nat) (hn : 1 ≤ n) :
    reduceArr bsize A n f = reduceSerial 0 n f A ∧
    reduceArr bsize A n f = reduceGo f A 1 (n - 1) (A 0) := by
  have h : reduceArr bsize A n f = reduceSerial 0 n f A :=
    reduce_eq_reduceSerial bsize hb f hf A (show 0 < n from hn)
  exact ⟨h, h⟩

/-- Closed instance of C2 at `bsize = 2`, `n = 5`, `f = (+)`. -/
theorem C2_reduce_eq_serial_witness :
    reduceArr 2 (fun i => i) 5 (fun a b => a + b) = reduceSerial 0 5 (fun a b => a + b) (fun i => i) ∧
    reduceArr 2 (fun i => i) 5 (fun a b => a + b) = reduceGo (fun a b => a + b) (fun i => i) 1 (5 - 1) ((fun i => (i:Nat)) 0) :=
  C2_reduce_eq_serial 2 (by decide) (fun a b => a + b)
    (fun a b c => Nat.add_assoc a b c) (fun i => i) 5 (by decide)

/-- C3: pack returns a sequence whose length is the number of true flags,
and whose `p`-th element is `f i` for the `p`-th true-flagged index `i` in
increasing order — serial base case and multi-block path alike. -/
theorem C3_pack_stable_compaction {α : Type} (bsize : Nat) (hb : 2 ≤ bsize)
    (Out : Option (Nat → α)) (dflt : α) (Fl : Nat → Bool) (n : Nat)
    (ff : Nat → α) (aligned : Bool) :
    ((pack bsize Out dflt Fl 0 n ff aligned).2 = (flagged Fl 0 n).length) ∧
    (∀ p, p < (flagged Fl 0 n).length →
      (pack bsize Out dflt Fl 0 n ff aligned).1 p = ff ((flagged Fl 0 n).getD p 0)) :=
  pack_spec bsize hb Out dflt Fl 0 n ff aligned

/-- Closed instance of C3 at `bsize = 2`, `n = 5`, flags at even indices. -/
theorem C3_pack_stable_compaction_witness :
    ((pack 2 none (0:Nat) (fun i => decide (i % 2 = 0)) 0 5 (fun i => i + 10) true).2
      = (flagged (fun i => decide (i % 2 = 0)) 0 5).length) ∧
    ((pack 2 none (0:Nat) (fun i => decide (i % 2 = 0)) 0 5 (fun i => i + 10) true).1 1
      = (fun i => i + 10) ((flagged (fun i => decide (i % 2 = 0)) 0 5).getD 1 0)) := by
  have h := C3_pack_stable_compaction 2 (by decide) none (0:Nat)
    (fun i => decide (i % 2 = 0)) 5 (fun i => i + 10) true
  exact ⟨h.1, h.2 1 (by decide)⟩

/-- C4: with every key `< n` or the sentinel and the flags pre-set to the
sentinel, after `remDuplicates` every key value that appeared is carried by
exactly one surviving entry, every entry either keeps its key or holds the
sentinel, and every flag slot is the sentinel again. -/
theorem C4_remDuplicates_post (keys flags : Nat → Nat) (m n : Nat)
    (hk : ∀ i, i < m → keys i < n ∨ keys i = UINT_E_MAX)
    (hfl : ∀ k, k < n → flags k = UINT_E_MAX)
    (hn : n ≤ UINT_E_MAX) (hm : m ≤ UINT_E_MAX) :
    (∀ k, k ≠ UINT_E_MAX → (∃ i, i < m ∧ keys i = k) →
      (∃ i, (i < m ∧ (remDuplicates keys flags m n).1 i = k) ∧
        ∀ i', i' < m → (remDuplicates keys flags m n).1 i' = k → i' = i)) ∧
    (∀ i, i < m → (remDuplicates keys flags m n).1 i = keys i ∨
      (remDuplicates keys flags m n).1 i = UINT_E_MAX) ∧
    (∀ k, k < n → (remDuplicates keys flags m n).2 k = UINT_E_MAX) := by
  obtain ⟨h1, _h2, h3⟩ := remDuplicates_char keys flags m n hk hfl hn hm
  refine ⟨?_, ?_, h3⟩
  · intro k hks hex
    have hex' : ∃ j, j < m ∧ keys j = k := hex
    have hfind := Nat.find_spec hex'
    refine ⟨Nat.find hex', ⟨hfind.1, ?_⟩, ?_⟩
    · rw [h1 _ hfind.1, if_pos, hfind.2]
      intro j' hj' hcon
      have : j' < m ∧ keys j' = k := ⟨lt_trans hj' hfind.1, by rw [hcon, hfind.2]⟩
      exact absurd this (Nat.find_min hex' hj')
    · intro i' hi' hk'
      rw [h1 i' hi'] at hk'
      by_cases hc : ∀ j', j' < i' → keys j' ≠ keys i'
      · rw [if_pos hc] at hk'
        rcases Nat.lt_trichotomy i' (Nat.find hex') with h | h | h
        · exact absurd ⟨hi', hk'⟩ (Nat.find_min hex' h)
        · exact h
        · exact absurd (by rw [hfind.2, ← hk'] : keys (Nat.find hex') = keys i')
            (hc _ h)
      · rw [if_neg hc] at hk'
        exact absurd hk'.symm hks
  · intro i hi
    rw [h1 i hi]
    by_cases hc : ∀ j', j' < i → keys j' ≠ keys i
    · rw [if_pos hc]; left; rfl
    · rw [if_neg hc]; right; rfl

/-- Closed instance of C4: `m = 4`, `n = 3`, keys `[1, 2, 1, 2^32-1]`. -/
theorem C4_remDuplicates_post_witness :
    (∃ i, (i < 4 ∧ (remDuplicates
        (fun i => if i = 0 then 1 else if i = 1 then 2 else if i = 2 then 1 else UINT_E_MAX)
        (fun _ => UINT_E_MAX) 4 3).1 i = 1) ∧
      ∀ i', i' < 4 → (remDuplicates
        (fun i => if i = 0 then 1 else if i = 1 then 2 else if i = 2 then 1 else UINT_E_MAX)
        (fun _ => UINT_E_MAX) 4 3).1 i' = 1 → i' = i) ∧
    ((remDuplicates
        (fun i => if i = 0 then 1 else if i = 1 then 2 else if i = 2 then 1 else UINT_E_MAX)
        (fun _ => UINT_E_MAX) 4 3).2 2 = UINT_E_MAX) := by
  have h := C4_remDuplicates_post
    (fun i => if i = 0 then 1 else if i = 1 then 2 else if i = 2 then 1 else UINT_E_MAX)
    (fun _ => UINT_E_MAX) 4 3
    (by intro i hi
        interval_cases i
        · left; decide
        · left; decide
        · left; decide
        · right; rfl)
    (fun k _ => rfl) (by unfold UINT_E_MAX; omega) (by unfold UINT_E_MAX; omega)
  exact ⟨h.1 1 (by unfold UINT_E_MAX; omega) ⟨0, by omega, by decide⟩, h.2.2 2 (by omega)⟩

/-- C5 (amended): with associativity AND commutativity of `f`, the reversed
scan equals the forward scan of the reversed array with its output read back
mirrored, in the exclusive and the inclusive mode, for any block size. -/
theorem C5_scanBack_mirrors_forward {α : Type} (bsize : Nat) (hb : 2 ≤ bsize)
    (f : α → α → α) (hf : ∀ a b c, f (f a b) c = f a (f b c))
    (hc : ∀ a b, f a b = f b a) (In Out1 Out2 : Nat → α) (n : Nat) (hn : 1 ≤ n)
    (z : α) :
    ((scanBack bsize In Out1 n f z).2
      = (scanArr bsize (fun t => In (n - 1 - t)) Out2 n f z).2) ∧
    (∀ j, j < n → (scanBack bsize In Out1 n f z).1 j
      = (scanArr bsize (fun t => In (n - 1 - t)) Out2 n f z).1 (n - 1 - j)) ∧
    ((scanIBack bsize In Out1 n f z).2
      = (scanI bsize (fun t => In (n - 1 - t)) Out2 n f z).2) ∧
    (∀ j, j < n → (scanIBack bsize In Out1 n f z).1 j
      = (scanI bsize (fun t => In (n - 1 - t)) Out2 n f z).1 (n - 1 - j)) := by
  have hbridge : ∀ c, c ≤ n →
      foldRange f z (fun t => In (n - 1 - t)) 0 c = foldGoRev f In z n c := by
    intro c hcn
    show foldGo f (fun t => In (n - 1 - t)) z 0 c = foldGoRev f In z n c
    rw [foldGo_rev_getter f In (n-1) c 0 (by omega) z,
      show n - 1 - 0 + 1 = n from by omega]
  have hBf := scan_back_char bsize hb f hf hc (n - 0) 0 n rfl Out1 In z false
  have hBi := scan_back_char bsize hb f hf hc (n - 0) 0 n rfl Out1 In z true
  have hFf := scan_fwd_char bsize hb f hf (n - 0) 0 n rfl Out2
    (fun t => In (n - 1 - t)) z false
  have hFi := scan_fwd_char bsize hb f hf (n - 0) 0 n rfl Out2
    (fun t => In (n - 1 - t)) z true
  refine ⟨?_, ?_, ?_, ?_⟩
  · show (scan bsize Out1 0 n f In z false true).2
      = (scan bsize Out2 0 n f (fun t => In (n - 1 - t)) z false false).2
    rw [hBf.1, hFf.1, hbridge n (le_refl n)]
    show foldRange f z In 0 n = foldRangeRev f z In 0 n
    exact (foldRangeRev_eq_foldRange f hf hc In z 0 n).symm
  · intro j hj
    show (scan bsize Out1 0 n f In z false true).1 j
      = (scan bsize Out2 0 n f (fun t => In (n - 1 - t)) z false false).1 (n - 1 - j)
    have hR := hFf.2 (n - 1 - j)
    rw [if_pos (⟨Nat.zero_le _, (by omega : n - 1 - j < n)⟩
      : 0 ≤ n - 1 - j ∧ n - 1 - j < n)] at hR
    simp only [Bool.false_eq_true, if_false] at hR
    rw [hbridge (n - 1 - j) (by omega)] at hR
    rw [hBf.2 j, if_pos ⟨Nat.zero_le _, hj⟩]
    simp only [Bool.false_eq_true, if_false]
    rw [hR, show n - 1 - j = n - (j + 1) from by omega]
    exact (foldGoRev_suffix f hf hc In z (show j + 1 ≤ n from hj)).symm
  · show (scan bsize Out1 0 n f In z true true).2
      = (scan bsize Out2 0 n f (fun t => In (n - 1 - t)) z true false).2
    rw [hBi.1, hFi.1, hbridge n (le_refl n)]
    show foldRange f z In 0 n = foldRangeRev f z In 0 n
    exact (foldRangeRev_eq_foldRange f hf hc In z 0 n).symm
  · intro j hj
    show (scan bsize Out1 0 n f In z true true).1 j
      = (scan bsize Out2 0 n f (fun t => In (n - 1 - t)) z true false).1 (n - 1 - j)
    have hR := hFi.2 (n - 1 - j)
    rw [if_pos (⟨Nat.zero_le _, (by omega : n - 1 - j < n)⟩
      : 0 ≤ n - 1 - j ∧ n - 1 - j < n)] at hR
    simp only [if_true] at hR
    rw [show n - 1 - j + 1 = n - j from by omega, hbridge (n - j) (by omega)] at hR
    rw [hBi.2 j, if_pos ⟨Nat.zero_le _, hj⟩]
    simp only [if_true]
    rw [hR]
    exact (foldGoRev_suffix f hf hc In z (show j ≤ n from by omega)).symm

/-- Closed instance of the amended C5 at `bsize = 2`, `n = 3`, `f = (+)`. -/
theorem C5_scanBack_mirrors_forward_witness :
    ((scanBack 2 (fun i => i) (fun _ => (0:Nat)) 3 (fun a b => a + b) 0).2
      = (scanArr 2 (fun t => (fun i => i) (3 - 1 - t)) (fun _ => (0:Nat)) 3 (fun a b => a + b) 0).2) ∧
    ((scanBack 2 (fun i => i) (fun _ => (0:Nat)) 3 (fun a b => a + b) 0).1 1
      = (scanArr 2 (fun t => (fun i => i) (3 - 1 - t)) (fun _ => (0:Nat)) 3 (fun a b => a + b) 0).1 (3 - 1 - 1)) ∧
    ((scanIBack 2 (fun i => i) (fun _ => (0:Nat)) 3 (fun a b => a + b) 0).2
      = (scanI 2 (fun t => (fun i => i) (3 - 1 - t)) (fun _ => (0:Nat)) 3 (fun a b => a + b) 0).2) ∧
    ((scanIBack 2 (fun i => i) (fun _ => (0:Nat)) 3 (fun a b => a + b) 0).1 1
      = (scanI 2 (fun t => (fun i => i) (3 - 1 - t)) (fun _ => (0:Nat)) 3 (fun a b => a + b) 0).1 (3 - 1 - 1)) := by
  have h := C5_scanBack_mirrors_forward 2 (by decide) (fun a b => a + b)
    (fun a b c => Nat.add_assoc a b c) (fun a b => Nat.add_comm a b)
    (fun i => i) (fun _ => 0) (fun _ => 0) 3 (by decide) 0
  exact ⟨h.1, h.2.1 1 (by decide), h.2.2.1, h.2.2.2 1 (by decide)⟩

/-- C5 counterexample: `cexF` is associative but not commutative; at
`bsize = 1024`, `n = 2049` (three blocks) the reversed exclusive scan of
`cexIn` returns total `7` and writes `7` at index `0`, while the forward
exclusive scan of the reversed array returns total `9` and writes `9` at
the mirrored index `2048` — so `scanBack` is not the mirrored forward scan
under associativity alone. -/
theorem C5_counterexample :
    (∀ a b c, cexF (cexF a b) c = cexF a (cexF b c)) ∧
    (scanBack 1024 cexIn (fun _ => (0:Nat)) 2049 cexF 0).2 = 7 ∧
    (scanArr 1024 (fun t => cexIn (2049 - 1 - t)) (fun _ => (0:Nat)) 2049 cexF 0).2 = 9 ∧
    (scanBack 1024 cexIn (fun _ => (0:Nat)) 2049 cexF 0).1 0 = 7 ∧
    (scanArr 1024 (fun t => cexIn (2049 - 1 - t)) (fun _ => (0:Nat)) 2049 cexF 0).1 (2049 - 1 - 0) = 9 := by
  have he : (fun t => cexIn (2049 - 1 - t)) = (fun t => cexIn (2048 - t)) := by
    funext t
    rw [show (2049 - 1 : Nat) = 2048 from rfl]
  rw [he, show (2049 - 1 - 0 : Nat) = 2048 from rfl]
  exact ⟨cexF_assoc, cex_back_out.1, cex_fwd_out.1, cex_back_out.2, cex_fwd_out.2⟩

/-- C6 (amended): reduce and pack delegate to their serial routine exactly
when the block count is `≤ 1`, while scan delegates exactly when its block
count is `≤ 2` (the claim had the scan and pack thresholds swapped). -/
theorem C6_delegation_thresholds {α : Type} (bsize : Nat) (Out : Nat → α)
    (s e : Nat) (f : α → α → α) (g : Nat → α) (zero : α) (incl back : Bool)
    (Op : Option (Nat → α)) (dflt : α) (Fl : Nat → Bool) (ff : Nat → α)
    (aligned : Bool) :
    (reduceGoesSerial bsize (e - s) = true ↔ nblocks (e - s) bsize ≤ 1) ∧
    (scanGoesSerial bsize (e - s) = true ↔ nblocks (e - s) bsize ≤ 2) ∧
    (packGoesSerial bsize (e - s) = true ↔ nblocks (e - s) (2 * bsize) ≤ 1) ∧
    (nblocks (e - s) bsize ≤ 1 → reduce bsize s e f g = reduceSerial s e f g) ∧
    (nblocks (e - s) bsize ≤ 2 →
      scan bsize Out s e f g zero incl back = scanSerial Out s e f g zero incl back) ∧
    (nblocks (e - s) (2 * bsize) ≤ 1 →
      pack bsize Op dflt Fl s e ff aligned = packSerial Op dflt Fl s e ff) := by
  refine ⟨reduceGoesSerial_iff _ _, scanGoesSerial_iff _ _, packGoesSerial_iff _ _,
    ?_, ?_, ?_⟩
  · intro h
    exact reduce_delegates bsize s e f g ((reduceGoesSerial_iff _ _).2 h)
  · intro h
    exact scan_delegates bsize Out s e f g zero incl back
      ((scanGoesSerial_iff _ _).2 h)
  · intro h
    exact pack_delegates bsize Op dflt Fl s e ff aligned
      ((packGoesSerial_iff _ _).2 h)

/-- Closed instance of the amended C6 at `bsize = 2`, range `[0, 2)`. -/
theorem C6_delegation_thresholds_witness :
    (reduceGoesSerial 2 (2 - 0) = true ↔ nblocks (2 - 0) 2 ≤ 1) ∧
    (reduce 2 0 2 (fun a b => a + b) (fun i => i)
      = reduceSerial 0 2 (fun a b => a + b) (fun i => i)) ∧
    (scan 2 (fun _ => (0:Nat)) 0 2 (fun a b => a + b) (fun i => i) 0 false false
      = scanSerial (fun _ => (0:Nat)) 0 2 (fun a b => a + b) (fun i => i) 0 false false) ∧
    (pack 2 none (0:Nat) (fun _ => true) 0 2 (fun i => i) true
      = packSerial none 0 (fun _ => true) 0 2 (fun i => i)) := by
  have h := C6_delegation_thresholds 2 (fun _ => (0:Nat)) 0 2 (fun a b => a + b)
    (fun i => i) 0 false false none 0 (fun _ => true) (fun i => i) true
  exact ⟨h.1, h.2.2.2.1 (by decide), h.2.2.2.2.1 (by decide), h.2.2.2.2.2 (by decide)⟩

/-- C6 counterexample: at `bsize = _SCAN_BSIZE = 1024` and `n = 1025` the
scan block count is `2 > 1`, yet scan still takes the serial branch (its
guard is `l ≤ 2`); and at `n = 2049` the pack block count over
`_F_BSIZE = 2048` is exactly `2`, yet pack's guard (`l ≤ 1`) sends it down
the recursive path — refuting the claimed `scan ≤ 1` / `pack ≤ 2`
thresholds. -/
theorem C6_counterexample :
    nblocks 1025 1024 = 2 ∧
    scanGoesSerial 1024 1025 = true ∧
    scan 1024 (fun _ => (0:Nat)) 0 1025 (fun a b => a + b) (fun i => i) 0 false false
      = scanSerial (fun _ => (0:Nat)) 0 1025 (fun a b => a + b) (fun i => i) 0 false false ∧
    nblocks 2049 (2 * 1024) = 2 ∧
    packGoesSerial 1024 2049 = false :=
  ⟨by decide, by decide,
    scan_delegates 1024 (fun _ => (0:Nat)) 0 1025 (fun a b => a + b) (fun i => i)
      0 false false (by decide),
    by decide, by decide⟩

/-- C7: `sumFlagsSerial` returns the number of true flags in `Fl[0..n)` on
both paths: with any alignment/batch disposition it agrees with the plain
per-element loop (`aligned = false` forces the plain path). -/
theorem C7_sumFlags_count (Fl : Nat → Bool) (n : Nat) (aligned : Bool) :
    sumFlagsSerial Fl n aligned = (flagged Fl 0 n).length ∧
    sumFlagsSerial Fl n aligned = sumFlagsSerial Fl n false := by
  refine ⟨sumFlagsSerial_eq Fl n aligned, ?_⟩
  rw [sumFlagsSerial_eq, sumFlagsSerial_eq]

/-- C8: over the empty range scan returns `(Out, zero)` untouched in every
mode, pack returns its buffer with length `0`, and `nblocks 0 = 1` sends
both down the serial branch. -/
theorem C8_empty_range {α : Type} (bsize s : Nat) (Out : Nat → α)
    (f : α → α → α) (g : Nat → α) (zero : α) (incl back : Bool) (dflt : α)
    (Fl : Nat → Bool) (ff : Nat → α) (aligned : Bool) (O : Nat → α) :
    scan bsize Out s s f g zero incl back = (Out, zero) ∧
    pack bsize (some O) dflt Fl s s ff aligned = (O, 0) ∧
    (pack bsize none dflt Fl s s ff aligned).2 = 0 ∧
    nblocks 0 bsize = 1 ∧
    scanGoesSerial bsize (s - s) = true ∧
    packGoesSerial bsize (s - s) = true := by
  have hss : s - s = 0 := Nat.sub_self s
  have hsg : scanGoesSerial bsize (s - s) = true := scanGoesSerial_of_zero hss
  have hpg : packGoesSerial bsize (s - s) = true := by
    rw [hss]
    unfold packGoesSerial
    rw [nblocks_zero]
    rfl
  refine ⟨?_, ?_, ?_, nblocks_zero bsize, hsg, hpg⟩
  · unfold scan
    rw [if_pos hsg]
    unfold scanSerial
    rw [hss]
    cases back
    · rfl
    · rfl
  · unfold pack
    rw [if_pos hpg]
    unfold packSerial
    rw [hss]
    rfl
  · unfold pack
    rw [if_pos hpg]
    unfold packSerial
    rw [hss]
    rfl

/-- C9: serialised `writeMin` proposals applied in any order against one
cell leave `min(v0, v1, ..., vN)` stored; a single call is a no-op returning
`false` when the stored value is already `≤ v`, and otherwise stores `v`
and returns `true`. -/
theorem C9_writeMin_min {α : Type} [LinearOrder α] (v0 : α) (l l' : List α)
    (hp : l.Perm l') (v : α) :
    writeMinFold v0 l = writeMinFold v0 l' ∧
    (∀ x, x ∈ v0 :: l → writeMinFold v0 l ≤ x) ∧
    writeMinFold v0 l ∈ v0 :: l ∧
    (writeMin v0 v).1 = min v0 v ∧
    (v0 ≤ v → writeMin v0 v = (v0, false)) ∧
    (v < v0 → writeMin v0 v = (v, true)) := by
  refine ⟨?_, ?_, ?_, writeMin_fst_min v0 v, ?_, ?_⟩
  · rw [writeMinFold_eq_foldl_min, writeMinFold_eq_foldl_min]
    exact foldl_min_perm hp v0
  · intro x hx
    rw [writeMinFold_eq_foldl_min]
    exact foldl_min_le l v0 x hx
  · rw [writeMinFold_eq_foldl_min]
    exact foldl_min_mem l v0
  · intro h
    unfold writeMin
    rw [if_neg (not_lt.2 h)]
  · intro h
    unfold writeMin
    rw [if_pos h]

/-- Closed instance of C9 at `v0 = 5`, proposals `[3, 9]` against `[9, 3]`. -/
theorem C9_writeMin_min_witness :
    writeMinFold 5 [3, 9] = writeMinFold 5 [9, 3] ∧
    writeMinFold 5 [3, 9] ≤ 3 ∧
    writeMinFold (5:Nat) [3, 9] ∈ [5, 3, 9] ∧
    (writeMin 5 7).1 = min 5 7 ∧
    writeMin (5:Nat) 7 = (5, false) ∧
    writeMin (5:Nat) 2 = (2, true) := by
  have h1 := C9_writeMin_min (5:Nat) [3, 9] [9, 3] (List.Perm.swap 9 3 []) 7
  have h2 := C9_writeMin_min (5:Nat) [3, 9] [9, 3] (List.Perm.swap 9 3 []) 2
  exact ⟨h1.1, h1.2.1 3 (by decide), h1.2.2.1, h1.2.2.2.1,
    h1.2.2.2.2.1 (by decide), h2.2.2.2.2.2 (by decide)⟩

/-- C10 (implicit): the in-place scan — destination aliasing the source, the
form pack's `plusScan(Sums, Sums, l)` relies on — returns the same total and
writes the same values over `[s, e)` as scanning the same data into any
separate buffer, in every mode and for any `f`. -/
theorem C10_inplace_scan {α : Type} (bsize : Nat) (hb : 2 ≤ bsize)
    (A Out : Nat → α) (s e : Nat) (f : α → α → α) (zero : α)
    (incl back : Bool) :
    ((scanIP bsize A s e f zero incl back).2
      = (scan bsize Out s e f A zero incl back).2) ∧
    (∀ j, s ≤ j → j < e → (scanIP bsize A s e f zero incl back).1 j
      = (scan bsize Out s e f A zero incl back).1 j) := by
  rw [scanIP_eq_scan bsize hb]
  exact ⟨(scan_out_indep bsize hb f A Out A s e zero incl back).1,
    (scan_out_indep bsize hb f A Out A s e zero incl back).2⟩

/-- Closed instance of C10 at `bsize = 2`, range `[0, 3)`. -/
theorem C10_inplace_scan_witness :
    ((scanIP 2 (fun i => i) 0 3 (fun a b => a + b) 0 false false).2
      = (scan 2 (fun _ => (0:Nat)) 0 3 (fun a b => a + b) (fun i => i) 0 false false).2) ∧
    ((scanIP 2 (fun i => i) 0 3 (fun a b => a + b) 0 false false).1 1
      = (scan 2 (fun _ => (0:Nat)) 0 3 (fun a b => a + b) (fun i => i) 0 false false).1 1) := by
  have h := C10_inplace_scan 2 (by decide) (fun i => i) (fun _ => (0:Nat)) 0 3
    (fun a b => a + b) 0 false false
  exact ⟨h.1, h.2 1 (by decide) (by decide)⟩
